import Mathlib

/-!
Verification of the intrusive doubly-linked list (`src/intrusive-list.h`,
`src/unnamed/part_000`) against its natural-language specification.

Nodes (`list_element_base`) are identified by their address, modelled as a
natural number.  The pointer state of the program is a heap assigning to every
address the values of its `prev` and `next` fields.  Every operation of the
source is translated into an explicit sequence of field writes on that heap,
in the exact order the C++ code performs them.
-/

set_option maxHeartbeats 1000000

namespace intrusive

/-- The two pointer fields of `list_element_base`. -/
structure Node where
  prev : Nat
  next : Nat
deriving DecidableEq, Repr

/-- The pointer heap: field contents of every node address. -/
abbrev Heap := Nat → Node

/-- Field write `a->next = b`. -/
def setNext (h : Heap) (a b : Nat) : Heap :=
  fun x => if x = a then ⟨(h a).prev, b⟩ else h x

/-- Field write `b->prev = a`. -/
def setPrev (h : Heap) (b a : Nat) : Heap :=
  fun x => if x = b then ⟨a, (h b).next⟩ else h x

/-- Models `list_element_base::link(a, b)`: `a->next = b; b->prev = a;`. -/
def link (h : Heap) (a b : Nat) : Heap :=
  setPrev (setNext h a b) b a

/-- Models `list_element_base::is_linked()`: `return prev != this;`. -/
def is_linked (h : Heap) (x : Nat) : Bool :=
  decide ((h x).prev ≠ x)

/-- Models `list_element_base::unlink()`: `link(prev, next); prev = next = this;`. -/
def unlink (h : Heap) (x : Nat) : Heap :=
  setPrev (setNext (link h (h x).prev (h x).next) x x) x x

/-- Default constructor `list_element_base() : prev(this), next(this)`,
run for a node constructed at address `x`. -/
def ctor_default (h : Heap) (x : Nat) : Heap :=
  setPrev (setNext h x x) x x

/-- Copy constructor `list_element_base(const list_element_base&)`: delegates
to the default constructor and ignores the source entirely. -/
def ctor_copy (h : Heap) (t o : Nat) : Heap :=
  ctor_default h t

/-- Copy assignment `operator=(const list_element_base&)`: identity check,
then `unlink()` on `*this`; the source is never read. -/
def assign_copy (h : Heap) (t o : Nat) : Heap :=
  if t = o then h else unlink h t

/-- Move assignment `operator=(list_element_base&&)`: identity check;
`unlink()` on `*this`; if `other.is_linked()`, take over the source's two
neighbour pointers via `std::exchange` and redirect the neighbours to `*this`.
The six field writes happen in source order. -/
def assign_move (h : Heap) (t o : Nat) : Heap :=
  if t = o then h
  else
    let h1 := unlink h t
    if (h1 o).prev ≠ o then
      let op := (h1 o).prev
      let onn := (h1 o).next
      setPrev (setNext (setNext (setNext (setPrev (setPrev h1 t op) o o) t onn) o o) op t) onn t
    else h1

/-- Move constructor: default-construct at `t`, then move-assign from `o`. -/
def ctor_move (h : Heap) (t o : Nat) : Heap :=
  assign_move (ctor_default h t) t o

/-- Models `~list_element_base() = default;` — the defaulted destructor performs no
pointer writes, so the heap is unchanged.  (`list::~list() = default;`
likewise destroys the sentinel through this defaulted destructor.) -/
def dtor (h : Heap) (x : Nat) : Heap :=
  h

/-- Models `list::empty()`: `!dummy.is_linked()`.  `d` is the sentinel address. -/
def empty (h : Heap) (d : Nat) : Bool :=
  !(is_linked h d)

/-- Models `list::begin()`: iterator at `dummy.next`. -/
def begin (h : Heap) (d : Nat) : Nat :=
  (h d).next

/-- Models `list::end()`: iterator at the sentinel itself. -/
def endIt (h : Heap) (d : Nat) : Nat :=
  d

/-- Models `list::insert(pos, value)`: identity check against `pos`, otherwise
`value.unlink()` then `link(pos->prev, value); link(value, pos)`.
Returns the new heap and the returned iterator. -/
def insert (h : Heap) (pos v : Nat) : Heap × Nat :=
  if pos = v then (h, pos)
  else
    let h1 := unlink h v
    let h2 := link h1 (h1 pos).prev v
    let h3 := link h2 v pos
    (h3, v)

/-- Models `list::erase(pos)`: `auto nxt = pos->next; pos.unlink(); return nxt;`. -/
def erase (h : Heap) (pos : Nat) : Heap × Nat :=
  (unlink h pos, (h pos).next)

/-- Models `list::push_front(v)`: `insert(begin(), v)`. -/
def push_front (h : Heap) (d v : Nat) : Heap :=
  (insert h (begin h d) v).1

/-- Models `list::push_back(v)`: `insert(end(), v)`. -/
def push_back (h : Heap) (d v : Nat) : Heap :=
  (insert h d v).1

/-- Models `list::pop_front()`: `erase(begin())`. -/
def pop_front (h : Heap) (d : Nat) : Heap :=
  (erase h (begin h d)).1

/-- Models `list::pop_back()`: `erase(std::prev(end()))`. -/
def pop_back (h : Heap) (d : Nat) : Heap :=
  (erase h ((h d).prev)).1

/-- Models `list::clear()`: `dummy.unlink()`. -/
def clear (h : Heap) (d : Nat) : Heap :=
  unlink h d

/-- Models `list::splice(pos, other, first, last_exclusive)`: no-op when
`first == last_exclusive`; otherwise read `last = prev(last_exclusive)`,
`before_pos = pos->prev`, `before_first = first->prev`,
`after_last = last->next`, then perform the three `link` calls in order. -/
def splice (h : Heap) (pos first lastEx : Nat) : Heap :=
  if first = lastEx then h
  else
    let last := (h lastEx).prev
    let beforePos := (h pos).prev
    let beforeFirst := (h first).prev
    let afterLast := (h last).next
    link (link (link h beforePos first) last pos) beforeFirst afterLast

/-- Iterator walk used by `list::size()` (`std::distance(begin(), end())`):
repeatedly follow `next` until the sentinel is reached, with explicit fuel
(the C++ loop has no fuel; any fuel exceeding the list length is enough). -/
def traverse (h : Heap) (d : Nat) : Nat → Nat → List Nat
  | 0, _ => []
  | fuel + 1, cur => if cur = d then [] else cur :: traverse h d fuel (h cur).next

/-- The member sequence of the list with sentinel `d`, by iterator traversal
from `begin()` to `end()`. -/
def seqOf (h : Heap) (d fuel : Nat) : List Nat :=
  traverse h d fuel (begin h d)

/-- Models `list::size()`: `std::distance(begin(), end())`. -/
def size (h : Heap) (d fuel : Nat) : Nat :=
  (seqOf h d fuel).length

/-- The forward-pointer map of the heap; iterating it is `operator++`. -/
def nextF (h : Heap) (x : Nat) : Nat :=
  (h x).next

/-- Predicate `chainFrom h a l z`: starting at node `a`, the nodes of `l` follow in
order via `next`, ending at `z`, with every `prev` pointer inverse to the
corresponding `next`. -/
def chainFrom (h : Heap) : Nat → List Nat → Nat → Prop
  | a, [], z => (h a).next = z ∧ (h z).prev = a
  | a, b :: l, z => (h a).next = b ∧ (h b).prev = a ∧ chainFrom h b l z

instance chainFromDecidable (h : Heap) : (l : List Nat) → (a z : Nat) → Decidable (chainFrom h a l z)
  | [], _, _ => inferInstanceAs (Decidable (_ ∧ _))
  | b :: l, _, z =>
    haveI : Decidable (chainFrom h b l z) := chainFromDecidable h l b z
    inferInstanceAs (Decidable (_ ∧ _ ∧ _))

/-- The cyclic linking condition for the node list `l`. -/
def ringChain (h : Heap) : List Nat → Prop
  | [] => True
  | a :: r => chainFrom h a r a

instance ringChainDecidable (h : Heap) (l : List Nat) : Decidable (ringChain h l) :=
  match l with
  | [] => inferInstanceAs (Decidable True)
  | a :: r => inferInstanceAs (Decidable (chainFrom h a r a))

/-- Predicate: `l` is a circular doubly-linked ring: its nodes are distinct and follow
each other cyclically in the order of `l`. -/
def isRingL (h : Heap) (l : List Nat) : Prop :=
  l.Nodup ∧ ringChain h l

instance isRingLDecidable (h : Heap) (l : List Nat) : Decidable (isRingL h l) :=
  inferInstanceAs (Decidable (_ ∧ _))

/-- The list with sentinel `d` holds exactly the member sequence `s`. -/
def isRing (h : Heap) (d : Nat) (s : List Nat) : Prop :=
  isRingL h (d :: s)

instance isRingDecidable (h : Heap) (d : Nat) (s : List Nat) : Decidable (isRing h d s) :=
  inferInstanceAs (Decidable (isRingL h (d :: s)))

/-- The structural invariant of the spec on a finite set `D` of live nodes:
`next` and `prev` stay inside `D` and are mutual inverses at every node
(`node.forward.back == node` and `node.back.forward == node`). -/
def WF (h : Heap) (D : Finset Nat) : Prop :=
  ∀ x ∈ D, (h x).next ∈ D ∧ (h x).prev ∈ D ∧
    (h ((h x).next)).prev = x ∧ (h ((h x).prev)).next = x

instance WFDecidable (h : Heap) (D : Finset Nat) : Decidable (WF h D) :=
  inferInstanceAs (Decidable (∀ x ∈ D, (h x).next ∈ D ∧ (h x).prev ∈ D ∧
    (h ((h x).next)).prev = x ∧ (h ((h x).prev)).next = x))

/-- Index of `x` in `l` (length of `l` when absent). -/
def posIn : List Nat → Nat → Nat
  | [], _ => 0
  | a :: l, x => if a = x then 0 else posIn l x + 1

/-- Concrete heap in which the nodes of `l` form a ring in the order of `l`
and every other node is self-looped. -/
def mkRing (l : List Nat) : Heap := fun x =>
  if x ∈ l then
    ⟨l.getD ((posIn l x + l.length - 1) % l.length) x,
     l.getD ((posIn l x + 1) % l.length) x⟩
  else ⟨x, x⟩

/-- Concrete heap holding two rings (lists assumed disjoint). -/
def mkRing2 (l₁ l₂ : List Nat) : Heap := fun x =>
  if x ∈ l₁ then mkRing l₁ x else mkRing l₂ x

/-- Last element of `a :: l`. -/
def lastD (a : Nat) : List Nat → Nat
  | [] => a
  | b :: l => lastD b l

theorem Node.eq_of (a b : Node) (hp : a.prev = b.prev) (hn : a.next = b.next) : a = b := by
  cases a; cases b; simp_all

theorem setNext_at (h : Heap) (a b : Nat) : (setNext h a b) a = ⟨(h a).prev, b⟩ := by
  simp [setNext]

theorem setNext_ne (h : Heap) (a b x : Nat) (hx : x ≠ a) : (setNext h a b) x = h x := by
  simp [setNext, hx]

theorem setPrev_at (h : Heap) (b a : Nat) : (setPrev h b a) b = ⟨a, (h b).next⟩ := by
  simp [setPrev]

theorem setPrev_ne (h : Heap) (b a x : Nat) (hx : x ≠ b) : (setPrev h b a) x = h x := by
  simp [setPrev, hx]

theorem link_next_a (h : Heap) (a b : Nat) : ((link h a b) a).next = b := by
  by_cases hab : a = b <;> simp [link, setPrev, setNext, hab]

theorem link_prev_b (h : Heap) (a b : Nat) : ((link h a b) b).prev = a := by
  simp [link, setPrev]

theorem link_prev_a (h : Heap) (a b : Nat) (hab : a ≠ b) :
    ((link h a b) a).prev = (h a).prev := by
  simp [link, setPrev, setNext, hab]

theorem link_next_b (h : Heap) (a b : Nat) (hab : a ≠ b) :
    ((link h a b) b).next = (h b).next := by
  have hba : b ≠ a := fun e => hab e.symm
  simp [link, setPrev, setNext, hba]

theorem link_ne (h : Heap) (a b x : Nat) (hxa : x ≠ a) (hxb : x ≠ b) :
    (link h a b) x = h x := by
  simp [link, setPrev, setNext, hxa, hxb]

theorem link_next_ne (h : Heap) (a b x : Nat) (hxa : x ≠ a) :
    ((link h a b) x).next = (h x).next := by
  by_cases hxb : x = b
  · subst hxb; exact link_next_b h a x (fun e => hxa e.symm)
  · rw [link_ne h a b x hxa hxb]

theorem link_prev_ne (h : Heap) (a b x : Nat) (hxb : x ≠ b) :
    ((link h a b) x).prev = (h x).prev := by
  by_cases hxa : x = a
  · subst hxa; exact link_prev_a h x b hxb
  · rw [link_ne h a b x hxa hxb]

theorem unlink_at (h : Heap) (x : Nat) : (unlink h x) x = ⟨x, x⟩ := by
  simp [unlink, setPrev, setNext]

theorem unlink_ne (h : Heap) (x y : Nat) (hy : y ≠ x) :
    (unlink h x) y = link h (h x).prev (h x).next y := by
  simp [unlink, setPrev, setNext, hy, link]

theorem unlink_unlinked (h : Heap) (x : Nat) (hp : (h x).prev = x) (hn : (h x).next = x) :
    unlink h x = h := by
  funext y
  by_cases hy : y = x
  · subst hy
    rw [unlink_at]
    exact Node.eq_of _ _ (by simp [hp]) (by simp [hn])
  · rw [unlink_ne h x y hy, hp, hn, link_ne h x x y hy hy]

theorem unlink_idem (h : Heap) (x : Nat) : unlink (unlink h x) x = unlink h x :=
  unlink_unlinked _ x (by rw [unlink_at]) (by rw [unlink_at])

theorem is_linked_unlink (h : Heap) (x : Nat) : is_linked (unlink h x) x = false := by
  simp [is_linked, unlink_at]

theorem unlink_next_ne (h : Heap) (x y : Nat) (hy : y ≠ x) (hyp : y ≠ (h x).prev) :
    ((unlink h x) y).next = (h y).next := by
  rw [unlink_ne h x y hy, link_next_ne _ _ _ _ hyp]

theorem unlink_prev_ne (h : Heap) (x y : Nat) (hy : y ≠ x) (hyn : y ≠ (h x).next) :
    ((unlink h x) y).prev = (h y).prev := by
  rw [unlink_ne h x y hy, link_prev_ne _ _ _ _ hyn]

theorem unlink_frame (h : Heap) (x y : Nat) (hy : y ≠ x) (hyp : y ≠ (h x).prev)
    (hyn : y ≠ (h x).next) : (unlink h x) y = h y := by
  rw [unlink_ne h x y hy, link_ne _ _ _ _ hyp hyn]

theorem lastD_mem (a : Nat) (l : List Nat) : lastD a l ∈ a :: l := by
  induction l generalizing a with
  | nil => exact List.mem_cons_self a []
  | cons b l ih => exact List.mem_cons_of_mem a (ih b)

theorem chainFrom_append (h : Heap) (a b z : Nat) (l₁ l₂ : List Nat) :
    chainFrom h a (l₁ ++ b :: l₂) z ↔ chainFrom h a l₁ b ∧ chainFrom h b l₂ z := by
  induction l₁ generalizing a with
  | nil => simp [chainFrom, and_assoc]
  | cons c l₁ ih => simp [chainFrom, ih, and_assoc]

theorem chainFrom_congr (h g : Heap) (a z : Nat) (l : List Nat)
    (hn : ∀ y ∈ a :: l, (g y).next = (h y).next)
    (hp : ∀ y ∈ l ++ [z], (g y).prev = (h y).prev)
    (hc : chainFrom h a l z) : chainFrom g a l z := by
  induction l generalizing a with
  | nil =>
    exact ⟨(hn a (by simp)).trans hc.1, (hp z (by simp)).trans hc.2⟩
  | cons b l ih =>
    obtain ⟨h1, h2, h3⟩ := hc
    refine ⟨(hn a (by simp)).trans h1, (hp b (by simp)).trans h2, ih b ?_ ?_ h3⟩
    · intro y hy
      refine hn y ?_
      simp only [List.mem_cons] at hy ⊢
      tauto
    · intro y hy
      refine hp y ?_
      simp only [List.mem_append, List.mem_cons, List.mem_singleton] at hy ⊢
      tauto

theorem chainFrom_last (h : Heap) (a z : Nat) (l : List Nat) (hc : chainFrom h a l z) :
    (h (lastD a l)).next = z ∧ (h z).prev = lastD a l := by
  induction l generalizing a with
  | nil => exact hc
  | cons b l ih => exact ih b hc.2.2

theorem chainFrom_head (h : Heap) (a z : Nat) (l : List Nat) (hc : chainFrom h a l z) :
    (h a).next = l.headD z := by
  cases l with
  | nil => exact hc.1
  | cons b l => exact hc.1

theorem chainFrom_mem_next (h : Heap) (a z x : Nat) (l : List Nat) (hc : chainFrom h a l z)
    (hx : x ∈ a :: l) : (h x).next ∈ l ++ [z] ∧ (h ((h x).next)).prev = x := by
  induction l generalizing a with
  | nil =>
    have hxa : x = a := by simpa using hx
    subst hxa
    exact ⟨by simp [hc.1], by rw [hc.1, hc.2]⟩
  | cons b l ih =>
    rcases List.mem_cons.mp hx with rfl | hx'
    · exact ⟨by simp [hc.1], by rw [hc.1, hc.2.1]⟩
    · obtain ⟨hm, hinv⟩ := ih b hc.2.2 hx'
      refine ⟨?_, hinv⟩
      simp only [List.cons_append, List.mem_cons]
      right
      exact hm

theorem chainFrom_mem_prev (h : Heap) (a z x : Nat) (l : List Nat) (hc : chainFrom h a l z)
    (hx : x ∈ l ++ [z]) : (h x).prev ∈ a :: l ∧ (h ((h x).prev)).next = x := by
  induction l generalizing a with
  | nil =>
    have hxz : x = z := by simpa using hx
    subst hxz
    exact ⟨by simp [hc.2], by rw [hc.2, hc.1]⟩
  | cons b l ih =>
    rcases List.mem_cons.mp (by simpa using hx : x ∈ b :: (l ++ [z])) with rfl | hx'
    · exact ⟨by simp [hc.2.1], by rw [hc.2.1, hc.1]⟩
    · obtain ⟨hm, hinv⟩ := ih b hc.2.2 hx'
      refine ⟨?_, hinv⟩
      simp only [List.mem_cons] at hm ⊢
      tauto

theorem chainFrom_retarget (h g : Heap) (a v z : Nat) (l : List Nat)
    (hnd : (a :: l).Nodup)
    (hc : chainFrom h a l v)
    (hn : ∀ y ∈ a :: l, y ≠ lastD a l → (g y).next = (h y).next)
    (hp : ∀ y ∈ l, (g y).prev = (h y).prev)
    (hlast : (g (lastD a l)).next = z)
    (hzp : (g z).prev = lastD a l) :
    chainFrom g a l z := by
  induction l generalizing a with
  | nil => exact ⟨hlast, hzp⟩
  | cons b l ih =>
    obtain ⟨h1, h2, h3⟩ := hc
    have hlm : lastD b l ∈ b :: l := lastD_mem b l
    have hanl : a ∉ b :: l := (List.nodup_cons.mp hnd).1
    refine ⟨?_, ?_, ?_⟩
    · rw [hn a (by simp) (fun e => hanl (by rw [e]; exact hlm)), h1]
    · rw [hp b (by simp), h2]
    · refine ih b ?_ h3 ?_ ?_ hlast hzp
      · exact (List.nodup_cons.mp hnd).2
      · intro y hy hy2
        refine hn y ?_ hy2
        simp only [List.mem_cons] at hy ⊢
        tauto
      · intro y hy
        refine hp y ?_
        simp only [List.mem_cons]
        right
        exact hy

theorem ringChain_rotate (h : Heap) (A B : List Nat) (hc : ringChain h (A ++ B)) :
    ringChain h (B ++ A) := by
  cases A with
  | nil => rw [List.append_nil]; exact hc
  | cons a A2 =>
    cases B with
    | nil => rw [List.nil_append]; rw [List.append_nil] at hc; exact hc
    | cons b B2 =>
      obtain ⟨c1, c2⟩ := (chainFrom_append h a b a A2 B2).mp hc
      exact (chainFrom_append h b a b B2 A2).mpr ⟨c2, c1⟩

theorem ringL_rotate (h : Heap) (A B : List Nat) (hr : isRingL h (A ++ B)) :
    isRingL h (B ++ A) :=
  ⟨List.perm_append_comm.nodup hr.1, ringChain_rotate h A B hr.2⟩

theorem ringL_frame (h g : Heap) (l : List Nat) (hfr : ∀ y ∈ l, g y = h y)
    (hr : isRingL h l) : isRingL g l := by
  obtain ⟨hnd, hch⟩ := hr
  refine ⟨hnd, ?_⟩
  cases l with
  | nil => trivial
  | cons a r =>
    refine chainFrom_congr h g a a r ?_ ?_ hch
    · intro y hy
      rw [hfr y hy]
    · intro y hy
      rcases List.mem_append.mp hy with hy2 | hy2
      · rw [hfr y (List.mem_cons_of_mem a hy2)]
      · rw [hfr y (by simp at hy2; simp [hy2])]

theorem ringL_unlink_last (h : Heap) (v : Nat) (C : List Nat) (hC : C ≠ [])
    (hr : isRingL h (C ++ [v])) : isRingL (unlink h v) C := by
  obtain ⟨hnd, hch⟩ := hr
  cases C with
  | nil => exact absurd rfl hC
  | cons c C2 =>
    have hch2 : chainFrom h c (C2 ++ v :: []) c := hch
    obtain ⟨c1, c2⟩ := (chainFrom_append h c v c C2 []).mp hch2
    obtain ⟨hvn, hcp⟩ : (h v).next = c ∧ (h c).prev = v := c2
    obtain ⟨hpn, hvp⟩ := chainFrom_last h c v C2 c1
    have hndc : (c :: C2).Nodup := List.Nodup.of_append_left hnd
    have hvnotin : v ∉ c :: C2 := fun hmem =>
      (List.disjoint_of_nodup_append hnd) hmem (by simp)
    refine ⟨hndc, ?_⟩
    have hglast : ((unlink h v) (lastD c C2)).next = c := by
      have hlv : lastD c C2 ≠ v := fun e => hvnotin (by rw [← e]; exact lastD_mem c C2)
      rw [unlink_ne h v _ hlv, hvp, hvn, link_next_a]
    have hgc : ((unlink h v) c).prev = lastD c C2 := by
      have hcv : c ≠ v := fun e => hvnotin (by rw [← e]; exact List.mem_cons_self c C2)
      rw [unlink_ne h v c hcv, hvp, hvn, link_prev_b]
    refine chainFrom_retarget h (unlink h v) c v c C2 hndc c1 ?_ ?_ hglast hgc
    · intro y hy hy2
      have hyv : y ≠ v := fun e => hvnotin (e ▸ hy)
      refine unlink_next_ne h v y hyv ?_
      rw [hvp]
      exact hy2
    · intro y hy
      have hyv : y ≠ v := fun e => hvnotin (e ▸ List.mem_cons_of_mem c hy)
      refine unlink_prev_ne h v y hyv ?_
      rw [hvn]
      intro e
      exact (List.nodup_cons.mp hndc).1 (e ▸ hy)

theorem ringL_unlink (h : Heap) (v : Nat) (A B : List Nat)
    (hr : isRingL h (A ++ v :: B)) : isRingL (unlink h v) (A ++ B) := by
  by_cases hAB : A ++ B = []
  · obtain ⟨hA, hB⟩ := List.append_eq_nil.mp hAB
    subst hA; subst hB
    obtain ⟨hnd, hch⟩ := hr
    have hch2 : chainFrom h v [] v := hch
    rw [hAB, unlink_unlinked h v hch2.2 hch2.1]
    exact ⟨List.nodup_nil, trivial⟩
  · have hBA : B ++ A ≠ [] := by
      intro e
      obtain ⟨hB, hA⟩ := List.append_eq_nil.mp e
      exact hAB (by rw [hA, hB]; rfl)
    have hr2 : isRingL h ((B ++ A) ++ [v]) := by
      have s1 : isRingL h ((v :: B) ++ A) := ringL_rotate h A (v :: B) hr
      have s2 : isRingL h ((B ++ A) ++ [v]) := by
        have := ringL_rotate h [v] (B ++ A) (by simpa using s1)
        exact this
      exact s2
    have s3 := ringL_unlink_last h v (B ++ A) hBA hr2
    exact ringL_rotate (unlink h v) B A s3

theorem ringL_insert_fresh (h : Heap) (pos v : Nat) (δ : List Nat)
    (hr : isRingL h (pos :: δ)) (hv1 : (h v).prev = v) (hv2 : (h v).next = v)
    (hvm : v ∉ pos :: δ) :
    isRingL (insert h pos v).1 (v :: pos :: δ) ∧ (insert h pos v).2 = v := by
  obtain ⟨hnd, hch⟩ := hr
  have hch2 : chainFrom h pos δ pos := hch
  have hpv : pos ≠ v := fun e => hvm (by rw [e]; exact List.mem_cons_self v δ)
  have hvp : v ≠ pos := fun e => hpv e.symm
  have hins : insert h pos v = (link (link h ((h pos).prev) v) v pos, v) := by
    simp only [insert, if_neg hpv, unlink_unlinked h v hv1 hv2]
  set g := link (link h ((h pos).prev) v) v pos with hg
  set X := link h ((h pos).prev) v with hX
  obtain ⟨hlastnext, hposprev⟩ := chainFrom_last h pos pos δ hch2
  set p := lastD pos δ with hp
  have hpmem : p ∈ pos :: δ := lastD_mem pos δ
  have hpnev : p ≠ v := fun e => hvm (e ▸ hpmem)
  have hXpnext : (X p).next = v := by
    rw [hX, ← hposprev, link_next_a]
  have hgv_next : (g v).next = pos := by
    rw [hg, link_next_a]
  have hgv_prev : (g v).prev = p := by
    rw [hg, link_prev_a _ _ _ hvp, hX, ← hposprev, link_prev_b]
  have hgpos_prev : (g pos).prev = v := by
    rw [hg, link_prev_b]
  have hgp_next : (g p).next = v := by
    rw [hg, link_next_ne _ _ _ _ hpnev, hXpnext]
  rw [hins]
  refine ⟨⟨?_, ?_, ?_, ?_⟩, rfl⟩
  · exact List.nodup_cons.mpr ⟨hvm, hnd⟩
  · exact hgv_next
  · exact hgpos_prev
  · refine chainFrom_retarget h g pos pos v δ hnd hch2 ?_ ?_ hgp_next hgv_prev
    · intro y hy hy2
      have hyv : y ≠ v := fun e => hvm (e ▸ hy)
      rw [hg, link_next_ne _ _ _ _ hyv, hX, link_next_ne _ _ _ _ (by rw [hposprev, hp]; exact hy2)]
    · intro y hy
      have hyv : y ≠ v := fun e => hvm (e ▸ List.mem_cons_of_mem pos hy)
      have hypos : y ≠ pos := fun e => (List.nodup_cons.mp hnd).1 (e ▸ hy)
      rw [hg, link_prev_ne _ _ _ _ hypos, hX, link_prev_ne _ _ _ _ hyv]

theorem ringL_mem_next (h : Heap) (a x : Nat) (r : List Nat) (hr : isRingL h (a :: r))
    (hx : x ∈ a :: r) : (h x).next ∈ a :: r ∧ (h ((h x).next)).prev = x := by
  obtain ⟨hm, hi⟩ := chainFrom_mem_next h a a x r hr.2 hx
  refine ⟨?_, hi⟩
  rcases List.mem_append.mp hm with h1 | h1
  · exact List.mem_cons_of_mem a h1
  · simp only [List.mem_singleton] at h1
    simp [h1]

theorem ringL_mem_prev (h : Heap) (a x : Nat) (r : List Nat) (hr : isRingL h (a :: r))
    (hx : x ∈ a :: r) : (h x).prev ∈ a :: r ∧ (h ((h x).prev)).next = x := by
  have hx2 : x ∈ r ++ [a] := by
    rcases List.mem_cons.mp hx with rfl | h1
    · simp
    · exact List.mem_append.mpr (Or.inl h1)
  obtain ⟨hm, hi⟩ := chainFrom_mem_prev h a a x r hr.2 hx2
  exact ⟨hm, hi⟩

theorem ringL_mem_next2 (h : Heap) (l : List Nat) (x : Nat) (hr : isRingL h l)
    (hx : x ∈ l) : (h x).next ∈ l ∧ (h ((h x).next)).prev = x := by
  cases l with
  | nil => simp at hx
  | cons a r => exact ringL_mem_next h a x r hr hx

theorem ringL_mem_prev2 (h : Heap) (l : List Nat) (x : Nat) (hr : isRingL h l)
    (hx : x ∈ l) : (h x).prev ∈ l ∧ (h ((h x).prev)).next = x := by
  cases l with
  | nil => simp at hx
  | cons a r => exact ringL_mem_prev h a x r hr hx

theorem is_linked_iff (h : Heap) (x : Nat) : is_linked h x = true ↔ (h x).prev ≠ x := by
  simp [is_linked]

theorem is_linked_false_iff (h : Heap) (x : Nat) :
    is_linked h x = false ↔ (h x).prev = x := by
  simp [is_linked]

theorem ctor_default_at (h : Heap) (x : Nat) : (ctor_default h x) x = ⟨x, x⟩ := by
  simp [ctor_default, setPrev, setNext]

theorem ctor_default_ne (h : Heap) (x y : Nat) (hy : y ≠ x) :
    (ctor_default h x) y = h y := by
  simp [ctor_default, setPrev, setNext, hy]

theorem ringL_next_ne (h : Heap) (l : List Nat) (hr : isRingL h l) (hlen : 2 ≤ l.length)
    {x : Nat} (hx : x ∈ l) : (h x).next ≠ x := by
  obtain ⟨hnd, hch⟩ := hr
  cases l with
  | nil => simp at hx
  | cons a r =>
    rcases List.mem_cons.mp hx with rfl | hxr
    · cases r with
      | nil => simp at hlen
      | cons b r2 =>
        have h1 : (h x).next = b := hch.1
        rw [h1]
        intro e
        exact (List.nodup_cons.mp hnd).1 (e ▸ List.mem_cons_self b r2)
    · obtain ⟨r₁, r₂, rfl⟩ := List.append_of_mem hxr
      have hch2 : chainFrom h a (r₁ ++ x :: r₂) a := hch
      obtain ⟨c1, c2⟩ := (chainFrom_append h a x a r₁ r₂).mp hch2
      have h1 : (h x).next = r₂.headD a := chainFrom_head h x a r₂ c2
      rw [h1]
      cases r₂ with
      | nil =>
        intro e
        exact (List.nodup_cons.mp hnd).1 (by rw [show a = x from e]; simp)
      | cons c r₃ =>
        intro e
        have hnd2 := (List.nodup_cons.mp hnd).2
        have hnd3 := List.Nodup.of_append_right hnd2
        exact (List.nodup_cons.mp hnd3).1 (by rw [← e]; simp)

theorem ringL_islinked (h : Heap) (l : List Nat) (hr : isRingL h l) (hlen : 2 ≤ l.length)
    {x : Nat} (hx : x ∈ l) : is_linked h x = true := by
  have hnext := ringL_next_ne h l hr hlen hx
  obtain ⟨_, hpi⟩ := ringL_mem_prev2 h l x hr hx
  rw [is_linked_iff]
  intro e
  rw [e] at hpi
  exact hnext hpi

theorem traverse_of_chain (h : Heap) (d : Nat) (s : List Nat) :
    ∀ (a fuel : Nat), chainFrom h a s d → (∀ x ∈ s, x ≠ d) → s.length < fuel →
      traverse h d fuel (h a).next = s := by
  induction s with
  | nil =>
    intro a fuel hc hx hf
    cases fuel with
    | zero => omega
    | succ f => rw [hc.1]; simp [traverse]
  | cons b s ih =>
    intro a fuel hc hx hf
    cases fuel with
    | zero => simp at hf
    | succ f =>
      rw [hc.1]
      simp only [traverse, if_neg (hx b (by simp))]
      rw [ih b f hc.2.2 (fun x hxm => hx x (by simp [hxm])) (by simp at hf; omega)]

theorem seqOf_ring (h : Heap) (d : Nat) (s : List Nat) (fuel : Nat)
    (hr : isRing h d s) (hf : s.length < fuel) : seqOf h d fuel = s := by
  obtain ⟨hnd, hch⟩ := hr
  have hch2 : chainFrom h d s d := hch
  have hx : ∀ x ∈ s, x ≠ d := fun x hxm e => (List.nodup_cons.mp hnd).1 (e ▸ hxm)
  exact traverse_of_chain h d s d fuel hch2 hx hf

theorem ring_erase_mem (h : Heap) (d v : Nat) (s₁ s₂ : List Nat)
    (hr : isRing h d (s₁ ++ v :: s₂)) :
    isRing (erase h v).1 d (s₁ ++ s₂) ∧ is_linked (erase h v).1 v = false ∧
    (erase h v).2 = s₂.headD d := by
  have hrm : isRingL (unlink h v) ((d :: s₁) ++ s₂) := ringL_unlink h v (d :: s₁) s₂ hr
  have hch : chainFrom h d (s₁ ++ v :: s₂) d := hr.2
  obtain ⟨c1, c2⟩ := (chainFrom_append h d v d s₁ s₂).mp hch
  exact ⟨hrm, is_linked_unlink h v, chainFrom_head h v d s₂ c2⟩

theorem ring_clear (h : Heap) (d : Nat) (s : List Nat) (hr : isRing h d s) :
    isRingL (clear h d) s ∧ empty (clear h d) d = true ∧ begin (clear h d) d = d := by
  have hrm : isRingL (unlink h d) (([] : List Nat) ++ s) := ringL_unlink h d [] s hr
  refine ⟨by simpa using hrm, ?_, ?_⟩
  · simp [empty, clear, is_linked_unlink]
  · show ((unlink h d) d).next = d
    rw [unlink_at]

theorem insert_eq_insert_unlink (h : Heap) (pos v : Nat) (hpv : pos ≠ v) :
    insert h pos v = insert (unlink h v) pos v := by
  simp only [insert, if_neg hpv, unlink_idem]

theorem ringL_insert_member (h : Heap) (pos v : Nat) (δ₁ δ₂ : List Nat)
    (hr : isRingL h (pos :: δ₁ ++ v :: δ₂)) :
    isRingL (insert h pos v).1 (v :: pos :: δ₁ ++ δ₂) ∧ (insert h pos v).2 = v := by
  have hvmem : v ∈ pos :: δ₁ ++ v :: δ₂ := by
    simp
  have hpv : pos ≠ v := by
    intro e
    have := hr.1
    rw [e] at this
    have h2 := (List.nodup_cons.mp this).1
    exact h2 (by simp)
  have hset : isRingL (unlink h v) (pos :: δ₁ ++ δ₂) :=
    ringL_unlink h v (pos :: δ₁) δ₂ hr
  have hvm2 : v ∉ pos :: δ₁ ++ δ₂ := by
    have hnd := hr.1
    intro hmem
    rcases List.mem_cons.mp hmem with e | hmem2
    · exact hpv e.symm
    · rcases List.mem_append.mp hmem2 with h1 | h1
      · have : ¬ (δ₁ ++ v :: δ₂).Nodup → False := fun hc => hc (List.nodup_cons.mp hnd).2
        refine this ?_
        intro hnd2
        exact (List.disjoint_of_nodup_append hnd2) h1 (by simp)
      · have hnd2 := (List.nodup_cons.mp hnd).2
        have hnd3 := List.Nodup.of_append_right hnd2
        exact (List.nodup_cons.mp hnd3).1 h1
  have := ringL_insert_fresh (unlink h v) pos v (δ₁ ++ δ₂)
    (by simpa using hset) (by rw [unlink_at]) (by rw [unlink_at]) (by simpa using hvm2)
  rw [insert_eq_insert_unlink h pos v hpv]
  exact this

theorem ringL_insert_cross (h : Heap) (v pos : Nat) (A B δ : List Nat)
    (hr1 : isRingL h (A ++ v :: B))
    (hr2 : isRingL h (pos :: δ))
    (hdisj : List.Disjoint (A ++ v :: B) (pos :: δ)) :
    isRingL (insert h pos v).1 (A ++ B) ∧
    isRingL (insert h pos v).1 (v :: pos :: δ) ∧ (insert h pos v).2 = v := by
  have hvsrc : v ∈ A ++ v :: B := by simp
  have hpv : pos ≠ v := fun e => hdisj hvsrc (by rw [← e]; simp)
  have hsrc1 : isRingL (unlink h v) (A ++ B) := ringL_unlink h v A B hr1
  obtain ⟨hvp_mem, _⟩ := ringL_mem_prev2 h (A ++ v :: B) v hr1 hvsrc
  obtain ⟨hvn_mem, _⟩ := ringL_mem_next2 h (A ++ v :: B) v hr1 hvsrc
  have hframe1 : ∀ y ∈ pos :: δ, (unlink h v) y = h y := by
    intro y hy
    refine unlink_frame h v y ?_ ?_ ?_
    · intro e; exact hdisj hvsrc (e ▸ hy)
    · intro e; exact hdisj hvp_mem (e ▸ hy)
    · intro e; exact hdisj hvn_mem (e ▸ hy)
  have hdst1 : isRingL (unlink h v) (pos :: δ) := ringL_frame h (unlink h v) _ hframe1 hr2
  have hvnotdst : v ∉ pos :: δ := fun hmem => hdisj hvsrc hmem
  have hfresh := ringL_insert_fresh (unlink h v) pos v δ hdst1
    (by rw [unlink_at]) (by rw [unlink_at]) hvnotdst
  rw [insert_eq_insert_unlink h pos v hpv]
  set h1 := unlink h v with hh1
  refine ⟨?_, hfresh.1, hfresh.2⟩
  -- the source ring is untouched by the relinking of v before pos
  have hp2mem : (h1 pos).prev ∈ pos :: δ :=
    (ringL_mem_prev2 h1 (pos :: δ) pos hdst1 (by simp)).1
  have hins1 : (insert h1 pos v).1 = link (link h1 ((h1 pos).prev) v) v pos := by
    simp only [insert, if_neg hpv, unlink_idem, hh1]
  have hvAB : v ∉ A ++ B := by
    intro hmem
    have hnd := hr1.1
    rcases List.mem_append.mp hmem with h1m | h1m
    · exact (List.disjoint_of_nodup_append hnd) h1m (by simp)
    · have hnd2 := List.Nodup.of_append_right hnd
      exact (List.nodup_cons.mp hnd2).1 h1m
  have hframe2 : ∀ y ∈ A ++ B, (insert h1 pos v).1 y = h1 y := by
    intro y hy
    have hysrc : y ∈ A ++ v :: B := by
      rcases List.mem_append.mp hy with h1m | h1m
      · exact List.mem_append.mpr (Or.inl h1m)
      · exact List.mem_append.mpr (Or.inr (List.mem_cons_of_mem v h1m))
    have hyv : y ≠ v := fun e => hvAB (e ▸ hy)
    have hypos : y ≠ pos := fun e => hdisj hysrc (by rw [e]; simp)
    have hyp2 : y ≠ (h1 pos).prev := fun e => hdisj hysrc (by rw [e]; exact hp2mem)
    rw [hins1, link_ne _ _ _ _ hyv hypos, link_ne _ _ _ _ hyp2 hyv]
  exact ringL_frame h1 (insert h1 pos v).1 _ hframe2 hsrc1

theorem splice_eq (h : Heap) (pos first lastEx lst bp bf : Nat)
    (hfl : first ≠ lastEx) (h1 : (h lastEx).prev = lst) (h2 : (h pos).prev = bp)
    (h3 : (h first).prev = bf) (h4 : (h lst).next = lastEx) :
    splice h pos first lastEx = link (link (link h bp first) lst pos) bf lastEx := by
  simp only [splice, if_neg hfl, h1, h2, h3, h4]

theorem splice_heap_next_ne (h : Heap) (bp f lst pos bf le y : Nat)
    (h1 : y ≠ bp) (h2 : y ≠ lst) (h3 : y ≠ bf) :
    ((link (link (link h bp f) lst pos) bf le) y).next = (h y).next := by
  rw [link_next_ne _ _ _ _ h3, link_next_ne _ _ _ _ h2, link_next_ne _ _ _ _ h1]

theorem splice_heap_prev_ne (h : Heap) (bp f lst pos bf le y : Nat)
    (h1 : y ≠ f) (h2 : y ≠ pos) (h3 : y ≠ le) :
    ((link (link (link h bp f) lst pos) bf le) y).prev = (h y).prev := by
  rw [link_prev_ne _ _ _ _ h3, link_prev_ne _ _ _ _ h2, link_prev_ne _ _ _ _ h1]

/-- The `splice` surgery across two disjoint rings: the segment
`first :: M` (with `lastEx` the node after it) moves out of the source ring
and in front of `pos` in the destination ring. -/
theorem ring_splice_cross (h : Heap) (first lastEx pos : Nat) (M γ δ : List Nat)
    (hs : isRingL h (first :: M ++ lastEx :: γ))
    (hd : isRingL h (pos :: δ))
    (hdisj : List.Disjoint (first :: M ++ lastEx :: γ) (pos :: δ)) :
    isRingL (splice h pos first lastEx) (lastEx :: γ) ∧
    isRingL (splice h pos first lastEx) (first :: M ++ pos :: δ) := by
  obtain ⟨hndS, hchS⟩ := hs
  obtain ⟨hndD, hchD⟩ := hd
  have hchS2 : chainFrom h first (M ++ lastEx :: γ) first := hchS
  obtain ⟨cM, cγ⟩ := (chainFrom_append h first lastEx first M γ).mp hchS2
  have cδ : chainFrom h pos δ pos := hchD
  -- the three read pointers
  obtain ⟨hlstnext, hlexprev⟩ := chainFrom_last h first lastEx M cM
  obtain ⟨hbfnext, hfirstprev⟩ := chainFrom_last h lastEx first γ cγ
  obtain ⟨hbpnext, hposprev⟩ := chainFrom_last h pos pos δ cδ
  set lst := lastD first M with hlstdef
  set bf := lastD lastEx γ with hbfdef
  set bp := lastD pos δ with hbpdef
  -- segment memberships
  have hlstm : lst ∈ first :: M := lastD_mem first M
  have hbfm : bf ∈ lastEx :: γ := lastD_mem lastEx γ
  have hbpm : bp ∈ pos :: δ := lastD_mem pos δ
  have hsub1 : ∀ x ∈ first :: M, x ∈ first :: M ++ lastEx :: γ := by
    intro x hx
    rcases List.mem_cons.mp hx with rfl | hx2
    · simp
    · simp [hx2]
  have hsub2 : ∀ x ∈ lastEx :: γ, x ∈ first :: M ++ lastEx :: γ := by
    intro x hx
    rcases List.mem_cons.mp hx with rfl | hx2
    · simp
    · simp [hx2]
  -- disjointness facts
  have hMγ : ∀ x ∈ first :: M, x ∉ lastEx :: γ :=
    fun x hx => (List.disjoint_of_nodup_append hndS) hx
  have hnd1 : (first :: M).Nodup := List.Nodup.of_append_left hndS
  have hnd2 : (lastEx :: γ).Nodup := List.Nodup.of_append_right hndS
  have hDS : ∀ x ∈ first :: M ++ lastEx :: γ, x ∉ pos :: δ := fun x hx => hdisj hx
  have hfl : first ≠ lastEx := fun e => hMγ first (by simp) (by rw [← e]; simp)
  have hsp : splice h pos first lastEx = link (link (link h bp first) lst pos) bf lastEx :=
    splice_eq h pos first lastEx lst bp bf hfl hlexprev hposprev hfirstprev hlstnext
  set g := link (link (link h bp first) lst pos) bf lastEx with hgdef
  rw [hsp]
  -- boundary values in the new heap
  have hg_bf_next : (g bf).next = lastEx := by rw [hgdef, link_next_a]
  have hg_lex_prev : (g lastEx).prev = bf := by rw [hgdef, link_prev_b]
  have hg_lst_next : (g lst).next = pos := by
    rw [hgdef, link_next_ne _ _ _ _ (fun e => hMγ lst hlstm (by rw [e]; exact hbfm)), link_next_a]
  have hg_pos_prev : (g pos).prev = lst := by
    rw [hgdef, link_prev_ne _ _ _ _ (fun e => hDS lastEx (hsub2 lastEx (by simp)) (by rw [← e]; simp)),
      link_prev_b]
  have hg_bp_next : (g bp).next = first := by
    rw [hgdef,
      link_next_ne _ _ _ _ (fun e => hDS bf (hsub2 bf hbfm) (by rw [← e]; exact hbpm)),
      link_next_ne _ _ _ _ (fun e => hDS lst (hsub1 lst hlstm) (by rw [← e]; exact hbpm)),
      link_next_a]
  have hg_first_prev : (g first).prev = bp := by
    rw [hgdef,
      link_prev_ne _ _ _ _ hfl,
      link_prev_ne _ _ _ _ (fun e => hDS first (hsub1 first (by simp)) (by rw [e]; simp)),
      link_prev_b]
  constructor
  · -- the source ring without the moved segment
    refine ⟨hnd2, ?_⟩
    refine chainFrom_retarget h g lastEx first lastEx γ hnd2 cγ ?_ ?_ hg_bf_next hg_lex_prev
    · intro y hy hy2
      rw [hgdef]
      refine splice_heap_next_ne h bp first lst pos bf lastEx y ?_ ?_ hy2
      · exact fun e => hDS y (hsub2 y hy) (e ▸ hbpm)
      · exact fun e => hMγ lst hlstm (by rw [← e]; exact hy)
    · intro y hy
      rw [hgdef]
      refine splice_heap_prev_ne h bp first lst pos bf lastEx y ?_ ?_ ?_
      · exact fun e => hMγ first (by simp) (by rw [← e]; exact List.mem_cons_of_mem lastEx hy)
      · exact fun e => hDS y (hsub2 y (List.mem_cons_of_mem lastEx hy)) (by rw [e]; simp)
      · exact fun e => (List.nodup_cons.mp hnd2).1 (e ▸ hy)
  · -- the destination ring with the segment in front of pos
    refine ⟨List.Nodup.append hnd1 hndD (fun x hx => hDS x (hsub1 x hx)), ?_⟩
    have cA : chainFrom g first M pos := by
      refine chainFrom_retarget h g first lastEx pos M hnd1 cM ?_ ?_ hg_lst_next hg_pos_prev
      · intro y hy hy2
        rw [hgdef]
        refine splice_heap_next_ne h bp first lst pos bf lastEx y ?_ hy2 ?_
        · exact fun e => hDS y (hsub1 y hy) (e ▸ hbpm)
        · exact fun e => hMγ y hy (e ▸ hbfm)
      · intro y hy
        rw [hgdef]
        refine splice_heap_prev_ne h bp first lst pos bf lastEx y ?_ ?_ ?_
        · exact fun e => (List.nodup_cons.mp hnd1).1 (e ▸ hy)
        · exact fun e => hDS y (hsub1 y (List.mem_cons_of_mem first hy)) (by rw [e]; simp)
        · exact fun e => hMγ y (List.mem_cons_of_mem first hy) (by rw [e]; simp)
    have cB : chainFrom g pos δ first := by
      refine chainFrom_retarget h g pos pos first δ hndD cδ ?_ ?_ hg_bp_next hg_first_prev
      · intro y hy hy2
        rw [hgdef]
        refine splice_heap_next_ne h bp first lst pos bf lastEx y hy2 ?_ ?_
        · exact fun e => hDS lst (hsub1 lst hlstm) (by rw [← e]; exact hy)
        · exact fun e => hDS bf (hsub2 bf hbfm) (by rw [← e]; exact hy)
      · intro y hy
        rw [hgdef]
        refine splice_heap_prev_ne h bp first lst pos bf lastEx y ?_ ?_ ?_
        · exact fun e => hDS first (hsub1 first (by simp)) (by rw [← e]; exact List.mem_cons_of_mem pos hy)
        · exact fun e => (List.nodup_cons.mp hndD).1 (e ▸ hy)
        · exact fun e => hDS lastEx (hsub2 lastEx (by simp)) (by rw [← e]; exact List.mem_cons_of_mem pos hy)
    exact (chainFrom_append g first pos first M δ).mpr ⟨cA, cB⟩

/-- The `splice` surgery within a single ring: the segment `first :: M` (with
`lastEx` right after it) moves in front of `pos`, where `pos` lies strictly
outside the closed segment `[first, lastEx]`. -/
theorem ring_splice_same (h : Heap) (first lastEx pos : Nat) (M γ₁ γ₂ : List Nat)
    (hs : isRingL h (first :: M ++ lastEx :: γ₁ ++ pos :: γ₂)) :
    isRingL (splice h pos first lastEx) (first :: M ++ pos :: γ₂ ++ lastEx :: γ₁) := by
  obtain ⟨hndS, hchS⟩ := hs
  have hndS2 : ((first :: M) ++ ((lastEx :: γ₁) ++ (pos :: γ₂))).Nodup := by
    have h0 := hndS
    rwa [List.append_assoc] at h0
  have hchS2 : chainFrom h first (M ++ lastEx :: (γ₁ ++ pos :: γ₂)) first := by
    have h0 : chainFrom h first ((M ++ lastEx :: γ₁) ++ pos :: γ₂) first := hchS
    rwa [List.append_assoc] at h0
  obtain ⟨cM, cRest⟩ := (chainFrom_append h first lastEx first M (γ₁ ++ pos :: γ₂)).mp hchS2
  obtain ⟨cγ₁, cγ₂⟩ := (chainFrom_append h lastEx pos first γ₁ γ₂).mp cRest
  obtain ⟨hlstnext, hlexprev⟩ := chainFrom_last h first lastEx M cM
  obtain ⟨hbpnext, hposprev⟩ := chainFrom_last h lastEx pos γ₁ cγ₁
  obtain ⟨hbfnext, hfirstprev⟩ := chainFrom_last h pos first γ₂ cγ₂
  set lst := lastD first M with hlstdef
  set bp := lastD lastEx γ₁ with hbpdef
  set bf := lastD pos γ₂ with hbfdef
  have hlstm : lst ∈ first :: M := lastD_mem first M
  have hbpm : bp ∈ lastEx :: γ₁ := lastD_mem lastEx γ₁
  have hbfm : bf ∈ pos :: γ₂ := lastD_mem pos γ₂
  -- nodup and segment disjointness
  have hnd1 : (first :: M).Nodup := List.Nodup.of_append_left hndS2
  have hnd23 : ((lastEx :: γ₁) ++ (pos :: γ₂)).Nodup :=
    List.Nodup.of_append_right hndS2
  have hnd2 : (lastEx :: γ₁).Nodup := List.Nodup.of_append_left hnd23
  have hnd3 : (pos :: γ₂).Nodup := List.Nodup.of_append_right hnd23
  have d1_23 : ∀ x ∈ first :: M, x ∉ (lastEx :: γ₁) ++ (pos :: γ₂) :=
    fun x hx => (List.disjoint_of_nodup_append hndS2) hx
  have d12 : ∀ x ∈ first :: M, x ∉ lastEx :: γ₁ :=
    fun x hx hm => d1_23 x hx (List.mem_append.mpr (Or.inl hm))
  have d13 : ∀ x ∈ first :: M, x ∉ pos :: γ₂ :=
    fun x hx hm => d1_23 x hx (List.mem_append.mpr (Or.inr hm))
  have d23 : ∀ x ∈ lastEx :: γ₁, x ∉ pos :: γ₂ :=
    fun x hx => (List.disjoint_of_nodup_append hnd23) hx
  have hfl : first ≠ lastEx := fun e => d12 first (by simp) (by rw [← e]; simp)
  have hsp : splice h pos first lastEx = link (link (link h bp first) lst pos) bf lastEx :=
    splice_eq h pos first lastEx lst bp bf hfl hlexprev hposprev hfirstprev hlstnext
  set g := link (link (link h bp first) lst pos) bf lastEx with hgdef
  rw [hsp]
  -- boundary values in the new heap
  have hg_bf_next : (g bf).next = lastEx := by rw [hgdef, link_next_a]
  have hg_lex_prev : (g lastEx).prev = bf := by rw [hgdef, link_prev_b]
  have hg_lst_next : (g lst).next = pos := by
    rw [hgdef, link_next_ne _ _ _ _ (fun e => d13 lst hlstm (by rw [e]; exact hbfm)), link_next_a]
  have hg_pos_prev : (g pos).prev = lst := by
    rw [hgdef, link_prev_ne _ _ _ _ (fun e => d23 lastEx (by simp) (by rw [← e]; simp)),
      link_prev_b]
  have hg_bp_next : (g bp).next = first := by
    rw [hgdef,
      link_next_ne _ _ _ _ (fun e => d23 bp hbpm (by rw [e]; exact hbfm)),
      link_next_ne _ _ _ _ (fun e => d12 lst hlstm (by rw [← e]; exact hbpm)),
      link_next_a]
  have hg_first_prev : (g first).prev = bp := by
    rw [hgdef,
      link_prev_ne _ _ _ _ hfl,
      link_prev_ne _ _ _ _ (fun e => d13 first (by simp) (by rw [e]; simp)),
      link_prev_b]
  -- nodup of the rearranged ring
  have hperm : (first :: M ++ lastEx :: γ₁ ++ pos :: γ₂).Perm
      (first :: M ++ pos :: γ₂ ++ lastEx :: γ₁) := by
    rw [List.append_assoc, List.append_assoc]
    exact List.Perm.append_left _ List.perm_append_comm
  refine ⟨hperm.nodup hndS, ?_⟩
  have cA : chainFrom g first M pos := by
    refine chainFrom_retarget h g first lastEx pos M hnd1 cM ?_ ?_ hg_lst_next hg_pos_prev
    · intro y hy hy2
      rw [hgdef]
      refine splice_heap_next_ne h bp first lst pos bf lastEx y ?_ hy2 ?_
      · exact fun e => d12 y hy (e ▸ hbpm)
      · exact fun e => d13 y hy (e ▸ hbfm)
    · intro y hy
      rw [hgdef]
      refine splice_heap_prev_ne h bp first lst pos bf lastEx y ?_ ?_ ?_
      · exact fun e => (List.nodup_cons.mp hnd1).1 (e ▸ hy)
      · exact fun e => d13 y (List.mem_cons_of_mem first hy) (by rw [e]; simp)
      · exact fun e => d12 y (List.mem_cons_of_mem first hy) (by rw [e]; simp)
  have cB : chainFrom g pos γ₂ lastEx := by
    refine chainFrom_retarget h g pos first lastEx γ₂ hnd3 cγ₂ ?_ ?_ hg_bf_next hg_lex_prev
    · intro y hy hy2
      rw [hgdef]
      refine splice_heap_next_ne h bp first lst pos bf lastEx y ?_ ?_ hy2
      · exact fun e => d23 bp hbpm (by rw [← e]; exact hy)
      · exact fun e => d13 lst hlstm (by rw [← e]; exact hy)
    · intro y hy
      rw [hgdef]
      refine splice_heap_prev_ne h bp first lst pos bf lastEx y ?_ ?_ ?_
      · exact fun e => d13 first (by simp) (by rw [← e]; exact List.mem_cons_of_mem pos hy)
      · exact fun e => (List.nodup_cons.mp hnd3).1 (e ▸ hy)
      · exact fun e => d23 lastEx (by simp) (by rw [← e]; exact List.mem_cons_of_mem pos hy)
  have cC : chainFrom g lastEx γ₁ first := by
    refine chainFrom_retarget h g lastEx pos first γ₁ hnd2 cγ₁ ?_ ?_ hg_bp_next hg_first_prev
    · intro y hy hy2
      rw [hgdef]
      refine splice_heap_next_ne h bp first lst pos bf lastEx y hy2 ?_ ?_
      · exact fun e => d12 lst hlstm (by rw [← e]; exact hy)
      · exact fun e => d23 y hy (e ▸ hbfm)
    · intro y hy
      rw [hgdef]
      refine splice_heap_prev_ne h bp first lst pos bf lastEx y ?_ ?_ ?_
      · exact fun e => d12 first (by simp) (by rw [← e]; exact List.mem_cons_of_mem lastEx hy)
      · exact fun e => d23 y (List.mem_cons_of_mem lastEx hy) (by rw [e]; simp)
      · exact fun e => (List.nodup_cons.mp hnd2).1 (e ▸ hy)
  have cBC : chainFrom g pos (γ₂ ++ lastEx :: γ₁) first :=
    (chainFrom_append g pos lastEx first γ₂ γ₁).mpr ⟨cB, cC⟩
  show chainFrom g first ((M ++ pos :: γ₂) ++ lastEx :: γ₁) first
  rw [List.append_assoc]
  exact (chainFrom_append g first pos first M (γ₂ ++ lastEx :: γ₁)).mpr ⟨cA, cBC⟩

theorem setPrev_next (h : Heap) (b a y : Nat) : ((setPrev h b a) y).next = (h y).next := by
  by_cases e : y = b
  · subst e; simp [setPrev]
  · rw [setPrev_ne h b a y e]

theorem setNext_prev (h : Heap) (a b y : Nat) : ((setNext h a b) y).prev = (h y).prev := by
  by_cases e : y = a
  · subst e; simp [setNext]
  · rw [setNext_ne h a b y e]

theorem WF.next_mem {h : Heap} {D : Finset Nat} (hw : WF h D) {x : Nat} (hx : x ∈ D) :
    (h x).next ∈ D := (hw x hx).1

theorem WF.prev_mem {h : Heap} {D : Finset Nat} (hw : WF h D) {x : Nat} (hx : x ∈ D) :
    (h x).prev ∈ D := (hw x hx).2.1

theorem WF.next_prev {h : Heap} {D : Finset Nat} (hw : WF h D) {x : Nat} (hx : x ∈ D) :
    (h ((h x).next)).prev = x := (hw x hx).2.2.1

theorem WF.prev_next {h : Heap} {D : Finset Nat} (hw : WF h D) {x : Nat} (hx : x ∈ D) :
    (h ((h x).prev)).next = x := (hw x hx).2.2.2

theorem WF.self_iff {h : Heap} {D : Finset Nat} (hw : WF h D) {x : Nat} (hx : x ∈ D) :
    (h x).prev = x ↔ (h x).next = x := by
  constructor
  · intro e
    have h1 := hw.prev_next hx
    rw [e] at h1
    exact h1
  · intro e
    have h1 := hw.next_prev hx
    rw [e] at h1
    exact h1

theorem WF_unlink (h : Heap) (D : Finset Nat) (v : Nat) (hw : WF h D) (hv : v ∈ D) :
    WF (unlink h v) D := by
  by_cases hp : (h v).prev = v
  · have hn : (h v).next = v := (WF.self_iff hw hv).mp hp
    rw [unlink_unlinked h v hp hn]
    exact hw
  · have hn : (h v).next ≠ v := fun e => hp ((WF.self_iff hw hv).mpr e)
    have hpv : (h v).prev ≠ v := hp
    have hpmem : (h v).prev ∈ D := hw.prev_mem hv
    have hnmem : (h v).next ∈ D := hw.next_mem hv
    have hpn : (h ((h v).prev)).next = v := hw.prev_next hv
    have hnp : (h ((h v).next)).prev = v := hw.next_prev hv
    have hnext : ∀ y, y ≠ v →
        ((unlink h v) y).next = if y = (h v).prev then (h v).next else (h y).next := by
      intro y hy
      rw [unlink_ne h v y hy]
      by_cases hyp : y = (h v).prev
      · rw [if_pos hyp, hyp]
        exact link_next_a _ _ _
      · rw [if_neg hyp, link_next_ne _ _ _ _ hyp]
    have hprev : ∀ y, y ≠ v →
        ((unlink h v) y).prev = if y = (h v).next then (h v).prev else (h y).prev := by
      intro y hy
      rw [unlink_ne h v y hy]
      by_cases hyn : y = (h v).next
      · rw [if_pos hyn, hyn]
        exact link_prev_b _ _ _
      · rw [if_neg hyn, link_prev_ne _ _ _ _ hyn]
    have fact1 : ∀ y ∈ D, (h y).next = v → y = (h v).prev := by
      intro y hy e
      have h1 := hw.next_prev hy
      rw [e] at h1
      rw [← h1]
    have fact2 : ∀ y ∈ D, (h y).prev = v → y = (h v).next := by
      intro y hy e
      have h1 := hw.prev_next hy
      rw [e] at h1
      rw [← h1]
    intro x hx
    by_cases hxv : x = v
    · subst hxv
      refine ⟨?_, ?_, ?_, ?_⟩ <;> simp [unlink_at, hx]
    · refine ⟨?_, ?_, ?_, ?_⟩
      · rw [hnext x hxv]
        by_cases e : x = (h v).prev
        · rw [if_pos e]; exact hnmem
        · rw [if_neg e]; exact hw.next_mem hx
      · rw [hprev x hxv]
        by_cases e : x = (h v).next
        · rw [if_pos e]; exact hpmem
        · rw [if_neg e]; exact hw.prev_mem hx
      · rw [hnext x hxv]
        by_cases e : x = (h v).prev
        · rw [if_pos e, hprev _ hn, if_pos rfl, e]
        · rw [if_neg e]
          have hz : (h x).next ≠ v := fun e2 => e (fact1 x hx e2)
          rw [hprev _ hz]
          have hzn : (h x).next ≠ (h v).next := by
            intro e2
            have h1 := hw.next_prev hx
            rw [e2, hnp] at h1
            exact hxv h1.symm
          rw [if_neg hzn]
          exact hw.next_prev hx
      · rw [hprev x hxv]
        by_cases e : x = (h v).next
        · rw [if_pos e, hnext _ hpv, if_pos rfl, e]
        · rw [if_neg e]
          have hz : (h x).prev ≠ v := fun e2 => e (fact2 x hx e2)
          rw [hnext _ hz]
          have hzn : (h x).prev ≠ (h v).prev := by
            intro e2
            have h1 := hw.prev_next hx
            rw [e2, hpn] at h1
            exact hxv h1.symm
          rw [if_neg hzn]
          exact hw.prev_next hx

theorem WF_ctor_default (h : Heap) (D : Finset Nat) (t : Nat) (hw : WF h D) (ht : t ∉ D) :
    WF (ctor_default h t) (D ∪ {t}) := by
  have hat : (ctor_default h t) t = ⟨t, t⟩ := by simp [ctor_default, setPrev, setNext]
  have hne : ∀ y, y ≠ t → (ctor_default h t) y = h y := by
    intro y hy
    simp [ctor_default, setPrev, setNext, hy]
  intro x hx
  rcases Finset.mem_union.mp hx with hxD | hxt
  · have hxt : x ≠ t := fun e => ht (e ▸ hxD)
    have h1 : (h x).next ∈ D := hw.next_mem hxD
    have h2 : (h x).prev ∈ D := hw.prev_mem hxD
    have h3 : (h x).next ≠ t := fun e => ht (e ▸ h1)
    have h4 : (h x).prev ≠ t := fun e => ht (e ▸ h2)
    rw [hne x hxt]
    refine ⟨Finset.mem_union_left _ h1, Finset.mem_union_left _ h2, ?_, ?_⟩
    · rw [hne _ h3]; exact hw.next_prev hxD
    · rw [hne _ h4]; exact hw.prev_next hxD
  · have hxt2 : x = t := by simpa using hxt
    subst hxt2
    refine ⟨?_, ?_, ?_, ?_⟩ <;> simp [hat]

theorem WF_assign_move (h : Heap) (D : Finset Nat) (t o : Nat) (hw : WF h D)
    (ht : t ∈ D) (ho : o ∈ D) : WF (assign_move h t o) D := by
  by_cases hto : t = o
  · simp only [assign_move, if_pos hto]
    exact hw
  · have hw1 : WF (unlink h t) D := WF_unlink h D t hw ht
    set h1 := unlink h t with hh1
    by_cases hol : (h1 o).prev ≠ o
    · set op := (h1 o).prev with hopdef
      set onn := (h1 o).next with honndef
      have hexp : assign_move h t o =
          setPrev (setNext (setNext (setNext (setPrev (setPrev h1 t op) o o) t onn) o o) op t) onn t := by
        rw [assign_move, if_neg hto]
        rw [← hh1]
        rw [if_pos hol]
      set g := setPrev (setNext (setNext (setNext (setPrev (setPrev h1 t op) o o) t onn) o o) op t) onn t with hgdef
      rw [hexp]
      have h1t : h1 t = ⟨t, t⟩ := unlink_at h t
      have honl : onn ≠ o := by
        intro e
        exact hol ((WF.self_iff hw1 ho).mpr e)
      have hop_t : op ≠ t := by
        intro e
        have h2 := hw1.prev_next ho
        rw [← hopdef, e, h1t] at h2
        exact hto h2
      have honn_t : onn ≠ t := by
        intro e
        have h2 := hw1.next_prev ho
        rw [← honndef, e, h1t] at h2
        exact hto h2
      have hopmem : op ∈ D := hw1.prev_mem ho
      have honnmem : onn ∈ D := hw1.next_mem ho
      have hop_next : (h1 op).next = o := hw1.prev_next ho
      have honn_prev : (h1 onn).prev = o := hw1.next_prev ho
      have hto2 : o ≠ t := fun e => hto e.symm
      -- pointwise description of the six writes
      have gt : g t = ⟨op, onn⟩ := by
        refine Node.eq_of _ _ ?_ ?_
        · rw [hgdef, setPrev_ne _ _ _ _ honn_t.symm, setNext_prev, setNext_prev, setNext_prev,
            setPrev_ne _ _ _ _ hto2.symm, setPrev_at]
        · rw [hgdef, setPrev_next, setNext_ne _ _ _ _ hop_t.symm,
            setNext_ne _ _ _ _ hto2.symm, setNext_at]
      have go : g o = ⟨o, o⟩ := by
        refine Node.eq_of _ _ ?_ ?_
        · rw [hgdef, setPrev_ne _ _ _ _ honl.symm, setNext_prev, setNext_prev, setNext_prev,
            setPrev_at]
        · rw [hgdef, setPrev_next, setNext_ne _ _ _ _ (Ne.symm hol), setNext_at]
      have gop_next : (g op).next = t := by
        rw [hgdef, setPrev_next, setNext_at]
      have gonn_prev : (g onn).prev = t := by
        rw [hgdef, setPrev_at]
      have gop_prev : op ≠ onn → (g op).prev = (h1 op).prev := by
        intro hne
        rw [hgdef, setPrev_ne _ _ _ _ hne, setNext_prev, setNext_prev, setNext_prev,
          setPrev_ne _ _ _ _ (fun e => hol (hopdef ▸ e)), setPrev_ne _ _ _ _ hop_t]
      have gonn_next : op ≠ onn → (g onn).next = (h1 onn).next := by
        intro hne
        rw [hgdef, setPrev_next, setNext_ne _ _ _ _ (fun e => hne e.symm),
          setNext_ne _ _ _ _ honl, setNext_ne _ _ _ _ honn_t, setPrev_next, setPrev_next]
      have gother : ∀ y, y ≠ t → y ≠ o → y ≠ op → y ≠ onn → g y = h1 y := by
        intro y h1' h2' h3' h4'
        rw [hgdef, setPrev_ne _ _ _ _ h4', setNext_ne _ _ _ _ h3', setNext_ne _ _ _ _ h2',
          setNext_ne _ _ _ _ h1', setPrev_ne _ _ _ _ h2', setPrev_ne _ _ _ _ h1']
      intro x hx
      by_cases hxt : x = t
      · subst hxt
        rw [gt]
        refine ⟨honnmem, hopmem, ?_, ?_⟩
        · show (g onn).prev = x
          rw [gonn_prev]
        · show (g op).next = x
          rw [gop_next]
      · by_cases hxo : x = o
        · subst hxo
          rw [go]
          refine ⟨hx, hx, ?_, ?_⟩ <;> rw [go]
        · by_cases hxop : x = op
          · subst hxop
            by_cases hoe : op = onn
            · have gx : g op = ⟨t, t⟩ := by
                refine Node.eq_of _ _ ?_ ?_
                · rw [show (g op).prev = (g onn).prev from by rw [← hoe], gonn_prev]
                · rw [gop_next]
              rw [gx]
              refine ⟨ht, ht, ?_, ?_⟩
              · show (g t).prev = op
                rw [gt]
              · show (g t).next = op
                rw [gt, hoe]
            · have gxp : (g op).prev = (h1 op).prev := gop_prev hoe
              have gxn : (g op).next = t := gop_next
              have hwmem : (h1 op).prev ∈ D := hw1.prev_mem hopmem
              have hwnext : (h1 ((h1 op).prev)).next = op := hw1.prev_next hopmem
              refine ⟨?_, ?_, ?_, ?_⟩
              · rw [gxn]; exact ht
              · rw [gxp]; exact hwmem
              · rw [gxn]
                show (g t).prev = op
                rw [gt]
              · rw [gxp]
                set w := (h1 op).prev with hwdef
                have hwt : w ≠ t := by
                  intro e
                  rw [e, h1t] at hwnext
                  exact hop_t hwnext.symm
                have hwo : w ≠ o := by
                  intro e
                  rw [e] at hwnext
                  exact hoe (honndef.trans hwnext).symm
                have hwop : w ≠ op := by
                  intro e
                  have hself : (h1 op).prev = op := hwdef.symm.trans e
                  have h2 := (WF.self_iff hw1 hopmem).mp hself
                  rw [hop_next] at h2
                  exact hol h2.symm
                by_cases hwonn : w = onn
                · rw [hwonn, gonn_next hoe, ← hwonn, hwnext]
                · rw [gother w hwt hwo hwop hwonn, hwnext]
          · by_cases hxonn : x = onn
            · subst hxonn
              have hoe : op ≠ onn := fun e => hxop (by rw [e])
              have gxp : (g onn).prev = t := gonn_prev
              have gxn : (g onn).next = (h1 onn).next := gonn_next hoe
              have hzmem : (h1 onn).next ∈ D := hw1.next_mem honnmem
              have hzprev : (h1 ((h1 onn).next)).prev = onn := hw1.next_prev honnmem
              refine ⟨?_, ?_, ?_, ?_⟩
              · rw [gxn]; exact hzmem
              · rw [gxp]; exact ht
              · rw [gxn]
                set z := (h1 onn).next with hzdef
                have hzt : z ≠ t := by
                  intro e
                  rw [e, h1t] at hzprev
                  exact honn_t hzprev.symm
                have hzo : z ≠ o := by
                  intro e
                  rw [e] at hzprev
                  exact hoe (hopdef.trans hzprev)
                have hzonn : z ≠ onn := by
                  intro e
                  have hself : (h1 onn).next = onn := hzdef.symm.trans e
                  have h2 := (WF.self_iff hw1 honnmem).mpr hself
                  rw [honn_prev] at h2
                  exact honl h2.symm
                by_cases hzop : z = op
                · rw [hzop, gop_prev hoe, ← hzop, hzprev]
                · rw [gother z hzt hzo hzop hzonn, hzprev]
              · rw [gxp]
                show (g t).next = onn
                rw [gt]
            · -- x is none of t, o, op, onn
              have gx : g x = h1 x := gother x hxt hxo hxop hxonn
              have hznext : (h1 ((h1 x).next)).prev = x := hw1.next_prev hx
              have hzprev : (h1 ((h1 x).prev)).next = x := hw1.prev_next hx
              refine ⟨?_, ?_, ?_, ?_⟩
              · rw [gx]; exact hw1.next_mem hx
              · rw [gx]; exact hw1.prev_mem hx
              · rw [gx]
                set z := (h1 x).next with hzdef
                have hzt : z ≠ t := by
                  intro e
                  rw [e, h1t] at hznext
                  exact hxt hznext.symm
                have hzo : z ≠ o := by
                  intro e
                  rw [e] at hznext
                  exact hxop (hopdef.trans hznext).symm
                have hzonn : z ≠ onn := by
                  intro e
                  rw [e, honn_prev] at hznext
                  exact hxo hznext.symm
                by_cases hzop : z = op
                · have hoe : op ≠ onn := fun e => hzonn (by rw [hzop, e])
                  rw [hzop, gop_prev hoe, ← hzop, hznext]
                · rw [gother z hzt hzo hzop hzonn, hznext]
              · rw [gx]
                set w := (h1 x).prev with hwdef
                have hwt : w ≠ t := by
                  intro e
                  rw [e, h1t] at hzprev
                  exact hxt hzprev.symm
                have hwo : w ≠ o := by
                  intro e
                  rw [e] at hzprev
                  exact hxonn (honndef.trans hzprev).symm
                have hwop : w ≠ op := by
                  intro e
                  rw [e, hop_next] at hzprev
                  exact hxo hzprev.symm
                by_cases hwonn : w = onn
                · have hoe : op ≠ onn := fun e => hwop (by rw [hwonn, ← e])
                  rw [hwonn, gonn_next hoe, ← hwonn, hzprev]
                · rw [gother w hwt hwo hwop hwonn, hzprev]
    · have hexp : assign_move h t o = h1 := by
        rw [assign_move, if_neg hto, ← hh1, if_neg hol]
      rw [hexp]
      exact hw1

theorem WF_linkIn (h : Heap) (D : Finset Nat) (pos v : Nat) (hw : WF h D)
    (hpos : pos ∈ D) (hv : v ∈ D) (hvp : (h v).prev = v) (hvpos : v ≠ pos) :
    WF (link (link h ((h pos).prev) v) v pos) D := by
  have hvn : (h v).next = v := (WF.self_iff hw hv).mp hvp
  have hpmem : (h pos).prev ∈ D := hw.prev_mem hpos
  have hpnext : (h ((h pos).prev)).next = pos := hw.prev_next hpos
  have hpv : (h pos).prev ≠ v := by
    intro e
    rw [e, hvn] at hpnext
    exact hvpos hpnext
  set g := link (link h ((h pos).prev) v) v pos with hgdef
  have gv : g v = ⟨(h pos).prev, pos⟩ := by
    refine Node.eq_of _ _ ?_ ?_
    · rw [hgdef, link_prev_a _ _ _ hvpos, link_prev_b]
    · rw [hgdef, link_next_a]
  have gpos_prev : (g pos).prev = v := by rw [hgdef, link_prev_b]
  have gp_next : (g ((h pos).prev)).next = v := by
    rw [hgdef, link_next_ne _ _ _ _ hpv]
    exact link_next_a _ _ _
  have gother_next : ∀ y, y ≠ v → y ≠ (h pos).prev → (g y).next = (h y).next := by
    intro y h1 h2
    rw [hgdef, link_next_ne _ _ _ _ h1, link_next_ne _ _ _ _ h2]
  have gother_prev : ∀ y, y ≠ pos → y ≠ v → (g y).prev = (h y).prev := by
    intro y h1 h2
    rw [hgdef, link_prev_ne _ _ _ _ h1, link_prev_ne _ _ _ _ h2]
  intro x hx
  by_cases hxv : x = v
  · subst hxv
    rw [gv]
    refine ⟨hpos, hpmem, ?_, ?_⟩
    · show (g pos).prev = x
      rw [gpos_prev]
    · show (g ((h pos).prev)).next = x
      rw [gp_next]
  · by_cases hxpos : x = pos
    · subst hxpos
      refine ⟨?_, ?_, ?_, ?_⟩
      · by_cases e : x = (h x).prev
        · have hgx : (g x).next = v := by
            rw [hgdef, link_next_ne _ _ _ _ hxv, ← e]
            exact link_next_a _ _ _
          rw [hgx]
          exact hv
        · rw [gother_next x hxv e]
          exact hw.next_mem hpos
      · rw [gpos_prev]
        exact hv
      · by_cases e : x = (h x).prev
        · have hgx : (g x).next = v := by
            rw [hgdef, link_next_ne _ _ _ _ hxv, ← e]
            exact link_next_a _ _ _
          rw [hgx, gv, ← e]
        · rw [gother_next x hxv e]
          have hz : (h ((h x).next)).prev = x := hw.next_prev hpos
          have hzpos : (h x).next ≠ x := by
            intro e2
            exact e (((WF.self_iff hw hpos).mpr e2).symm)
          have hzv : (h x).next ≠ v := by
            intro e2
            rw [e2, hvp] at hz
            exact hxv hz.symm
          rw [gother_prev _ hzpos hzv]
          exact hz
      · rw [gpos_prev, gv]
    · by_cases hxp : x = (h pos).prev
      · subst hxp
        have hppos : (h pos).prev ≠ pos := fun e => hxpos e
        refine ⟨?_, ?_, ?_, ?_⟩
        · rw [gp_next]
          exact hv
        · rw [gother_prev _ hppos hpv]
          exact hw.prev_mem hpmem
        · rw [gp_next, gv]
        · rw [gother_prev _ hppos hpv]
          have hwnext : (h ((h ((h pos).prev)).prev)).next = (h pos).prev :=
            hw.prev_next hpmem
          have hwv : (h ((h pos).prev)).prev ≠ v := by
            intro e
            rw [e, hvn] at hwnext
            exact hpv hwnext.symm
          have hwp : (h ((h pos).prev)).prev ≠ (h pos).prev := by
            intro e
            have := (WF.self_iff hw hpmem).mp e
            rw [hpnext] at this
            exact hxpos this.symm
          rw [gother_next _ hwv hwp]
          exact hwnext
      · refine ⟨?_, ?_, ?_, ?_⟩
        · rw [gother_next x hxv hxp]
          exact hw.next_mem hx
        · rw [gother_prev x hxpos hxv]
          exact hw.prev_mem hx
        · rw [gother_next x hxv hxp]
          have hz : (h ((h x).next)).prev = x := hw.next_prev hx
          have hzpos : (h x).next ≠ pos := by
            intro e
            rw [e] at hz
            exact hxp hz.symm
          have hzv : (h x).next ≠ v := by
            intro e
            rw [e, hvp] at hz
            exact hxv hz.symm
          rw [gother_prev _ hzpos hzv]
          exact hz
        · rw [gother_prev x hxpos hxv]
          have hw2 : (h ((h x).prev)).next = x := hw.prev_next hx
          have hwv : (h x).prev ≠ v := by
            intro e
            rw [e, hvn] at hw2
            exact hxv hw2.symm
          have hwp : (h x).prev ≠ (h pos).prev := by
            intro e
            rw [e, hpnext] at hw2
            exact hxpos hw2.symm
          rw [gother_next _ hwv hwp]
          exact hw2

theorem WF_insert (h : Heap) (D : Finset Nat) (pos v : Nat) (hw : WF h D)
    (hpos : pos ∈ D) (hv : v ∈ D) : WF (insert h pos v).1 D := by
  by_cases hpv : pos = v
  · simp only [insert, if_pos hpv]
    exact hw
  · have hw1 := WF_unlink h D v hw hv
    have h1 : (insert h pos v).1 =
        link (link (unlink h v) (((unlink h v) pos)).prev v) v pos := by
      simp only [insert, if_neg hpv]
    rw [h1]
    exact WF_linkIn (unlink h v) D pos v hw1 hpos hv (by rw [unlink_at]) (fun e => hpv e.symm)

theorem WF_iterate_mem {h : Heap} {D : Finset Nat} (hw : WF h D) {x : Nat} (hx : x ∈ D) :
    ∀ k, (nextF h)^[k] x ∈ D := by
  intro k
  induction k with
  | zero => simpa using hx
  | succ k ih =>
    rw [Function.iterate_succ_apply']
    exact hw.next_mem ih

theorem WF_next_injOn {h : Heap} {D : Finset Nat} (hw : WF h D) {x y : Nat} (hx : x ∈ D)
    (hy : y ∈ D) (e : nextF h x = nextF h y) : x = y := by
  have h1 := hw.next_prev hx
  have h2 := hw.next_prev hy
  have e2 : (h x).next = (h y).next := e
  rw [← h1, e2, h2]

theorem WF_iterate_injOn {h : Heap} {D : Finset Nat} (hw : WF h D) :
    ∀ (k : Nat) (a b : Nat), a ∈ D → b ∈ D →
      (nextF h)^[k] a = (nextF h)^[k] b → a = b := by
  intro k
  induction k with
  | zero =>
    intro a b _ _ e
    simpa using e
  | succ k ih =>
    intro a b ha hb e
    rw [Function.iterate_succ_apply, Function.iterate_succ_apply] at e
    have h2 := ih (nextF h a) (nextF h b) (hw.next_mem ha) (hw.next_mem hb) e
    exact WF_next_injOn hw ha hb h2

theorem WF_iterate_cancel {h : Heap} {D : Finset Nat} (hw : WF h D) {x : Nat} (hx : x ∈ D)
    (i j : Nat) (hij : i ≤ j) (e : (nextF h)^[i] x = (nextF h)^[j] x) :
    (nextF h)^[j - i] x = x := by
  have e2 : (nextF h)^[i] ((nextF h)^[j - i] x) = (nextF h)^[i] x := by
    rw [← Function.iterate_add_apply]
    rw [show i + (j - i) = j by omega]
    exact e.symm
  exact WF_iterate_injOn hw i _ x (WF_iterate_mem hw hx _) hx e2

/-- On a well-formed heap, following `forward` from any live node returns to
it after finitely many steps, visiting pairwise-distinct nodes on the way. -/
theorem WF_cycle {h : Heap} {D : Finset Nat} (hw : WF h D) {x : Nat} (hx : x ∈ D) :
    ∃ k, 0 < k ∧ k ≤ D.card ∧ (nextF h)^[k] x = x ∧
      ∀ i j, i < j → j < k → (nextF h)^[i] x ≠ (nextF h)^[j] x := by
  have hmap : ∀ i ∈ Finset.range (D.card + 1), (nextF h)^[i] x ∈ D :=
    fun i _ => WF_iterate_mem hw hx i
  obtain ⟨i, hi, j, hj, hij, e⟩ :=
    Finset.exists_ne_map_eq_of_card_lt_of_maps_to (by simp) hmap
  have hkey : ∃ m, (0 < m ∧ m ≤ D.card) ∧ (nextF h)^[m] x = x := by
    rcases Nat.lt_or_ge i j with hlt | hge
    · refine ⟨j - i, ⟨by omega, ?_⟩, WF_iterate_cancel hw hx i j (by omega) e⟩
      have : j ≤ D.card := by
        have := Finset.mem_range.mp hj
        omega
      omega
    · have hlt : j < i := by
        rcases Nat.lt_or_ge j i with h1 | h1
        · exact h1
        · exact absurd (Nat.le_antisymm hge h1) (Ne.symm hij)
      refine ⟨i - j, ⟨by omega, ?_⟩, WF_iterate_cancel hw hx j i (by omega) e.symm⟩
      have : i ≤ D.card := by
        have := Finset.mem_range.mp hi
        omega
      omega
  have hex : ∃ m, 0 < m ∧ (nextF h)^[m] x = x := by
    obtain ⟨m, ⟨h1, _⟩, h3⟩ := hkey
    exact ⟨m, h1, h3⟩
  refine ⟨Nat.find hex, (Nat.find_spec hex).1, ?_, (Nat.find_spec hex).2, ?_⟩
  · obtain ⟨m, ⟨h1, h2⟩, h3⟩ := hkey
    exact le_trans (Nat.find_le ⟨h1, h3⟩) h2
  · intro a b hab hbk e2
    have hcan : (nextF h)^[b - a] x = x := WF_iterate_cancel hw hx a b (by omega) e2
    have hlt : b - a < Nat.find hex := by omega
    exact Nat.find_min hex hlt ⟨by omega, hcan⟩

/-- Two disjoint rings form a well-formed heap on their union of nodes. -/
theorem WF_of_two_rings (h : Heap) (l₁ l₂ : List Nat) (hr1 : isRingL h l₁)
    (hr2 : isRingL h l₂) (hdisj : List.Disjoint l₁ l₂) :
    WF h (l₁.toFinset ∪ l₂.toFinset) := by
  intro x hx
  have hmem : x ∈ l₁ ∨ x ∈ l₂ := by
    rcases Finset.mem_union.mp hx with h1 | h1
    · exact Or.inl (List.mem_toFinset.mp h1)
    · exact Or.inr (List.mem_toFinset.mp h1)
  rcases hmem with h1 | h1
  · cases l₁ with
    | nil => simp at h1
    | cons a r =>
      obtain ⟨hnm, hni⟩ := ringL_mem_next h a x r hr1 h1
      obtain ⟨hpm, hpi⟩ := ringL_mem_prev h a x r hr1 h1
      exact ⟨Finset.mem_union_left _ (List.mem_toFinset.mpr hnm),
        Finset.mem_union_left _ (List.mem_toFinset.mpr hpm), hni, hpi⟩
  · cases l₂ with
    | nil => simp at h1
    | cons a r =>
      obtain ⟨hnm, hni⟩ := ringL_mem_next h a x r hr2 h1
      obtain ⟨hpm, hpi⟩ := ringL_mem_prev h a x r hr2 h1
      exact ⟨Finset.mem_union_right _ (List.mem_toFinset.mpr hnm),
        Finset.mem_union_right _ (List.mem_toFinset.mpr hpm), hni, hpi⟩

/-- A single ring forms a well-formed heap on its set of nodes. -/
theorem WF_of_ring (h : Heap) (l : List Nat) (hr : isRingL h l) : WF h l.toFinset := by
  intro x hx
  have h1 : x ∈ l := List.mem_toFinset.mp hx
  cases l with
  | nil => simp at h1
  | cons a r =>
    obtain ⟨hnm, hni⟩ := ringL_mem_next h a x r hr h1
    obtain ⟨hpm, hpi⟩ := ringL_mem_prev h a x r hr h1
    exact ⟨List.mem_toFinset.mpr hnm, List.mem_toFinset.mpr hpm, hni, hpi⟩

theorem assign_move_self (h : Heap) (t : Nat) : assign_move h t t = h := by
  simp [assign_move]

theorem assign_move_of_unlinked (h : Heap) (t o : Nat) (hto : t ≠ o)
    (hol : ¬ ((unlink h t) o).prev ≠ o) : assign_move h t o = unlink h t := by
  simp only [assign_move, if_neg hto]
  rw [if_neg hol]

/-- Behaviour of a linked-source move assignment: the destination takes over
the source's ring position and the source ends self-looped. -/
theorem assign_move_spec (h : Heap) (D : Finset Nat) (t o : Nat) (hw : WF h D)
    (ht : t ∈ D) (ho : o ∈ D) (hto : t ≠ o)
    (hol : ((unlink h t) o).prev ≠ o) :
    (assign_move h t o) t = ⟨((unlink h t) o).prev, ((unlink h t) o).next⟩ ∧
    ((assign_move h t o) (((unlink h t) o).prev)).next = t ∧
    ((assign_move h t o) (((unlink h t) o).next)).prev = t ∧
    (assign_move h t o) o = ⟨o, o⟩ := by
  have hw1 : WF (unlink h t) D := WF_unlink h D t hw ht
  set h1 := unlink h t with hh1
  set op := (h1 o).prev with hopdef
  set onn := (h1 o).next with honndef
  have hexp : assign_move h t o =
      setPrev (setNext (setNext (setNext (setPrev (setPrev h1 t op) o o) t onn) o o) op t) onn t := by
    rw [assign_move, if_neg hto]
    rw [← hh1]
    rw [if_pos hol]
  set g := setPrev (setNext (setNext (setNext (setPrev (setPrev h1 t op) o o) t onn) o o) op t) onn t with hgdef
  have h1t : h1 t = ⟨t, t⟩ := unlink_at h t
  have honl : onn ≠ o := fun e => hol ((WF.self_iff hw1 ho).mpr e)
  have hop_t : op ≠ t := by
    intro e
    have h2 := hw1.prev_next ho
    rw [← hopdef, e, h1t] at h2
    exact hto h2
  have honn_t : onn ≠ t := by
    intro e
    have h2 := hw1.next_prev ho
    rw [← honndef, e, h1t] at h2
    exact hto h2
  have hto2 : o ≠ t := fun e => hto e.symm
  have gt : g t = ⟨op, onn⟩ := by
    refine Node.eq_of _ _ ?_ ?_
    · rw [hgdef, setPrev_ne _ _ _ _ honn_t.symm, setNext_prev, setNext_prev, setNext_prev,
        setPrev_ne _ _ _ _ hto2.symm, setPrev_at]
    · rw [hgdef, setPrev_next, setNext_ne _ _ _ _ hop_t.symm,
        setNext_ne _ _ _ _ hto2.symm, setNext_at]
  have go : g o = ⟨o, o⟩ := by
    refine Node.eq_of _ _ ?_ ?_
    · rw [hgdef, setPrev_ne _ _ _ _ honl.symm, setNext_prev, setNext_prev, setNext_prev,
        setPrev_at]
    · rw [hgdef, setPrev_next, setNext_ne _ _ _ _ (Ne.symm hol), setNext_at]
  have gop_next : (g op).next = t := by
    rw [hgdef, setPrev_next, setNext_at]
  have gonn_prev : (g onn).prev = t := by
    rw [hgdef, setPrev_at]
  rw [hexp]
  exact ⟨gt, gop_next, gonn_prev, go⟩

/-- C9: `unlink()` is idempotent: on an already-unlinked (self-looped) node it
is a no-op that leaves the heap unchanged; after any `unlink()` the node is
self-looped and reports `is_linked() == false`, and running `unlink()` twice
equals running it once. -/
theorem spec_c9 (h : Heap) (x : Nat) :
    ((h x).prev = x → (h x).next = x → unlink h x = h) ∧
    unlink (unlink h x) x = unlink h x ∧
    is_linked (unlink h x) x = false ∧
    ((unlink h x) x).prev = x ∧ ((unlink h x) x).next = x :=
  ⟨unlink_unlinked h x, unlink_idem h x, is_linked_unlink h x,
    by rw [unlink_at], by rw [unlink_at]⟩

theorem spec_c9_witness :
    unlink (mkRing [4, 5]) 6 = mkRing [4, 5] ∧
    unlink (unlink (mkRing [4, 5]) 4) 4 = unlink (mkRing [4, 5]) 4 ∧
    is_linked (unlink (mkRing [4, 5]) 4) 4 = false :=
  ⟨(spec_c9 (mkRing [4, 5]) 6).1 (by decide) (by decide),
    (spec_c9 (mkRing [4, 5]) 4).2.1,
    (spec_c9 (mkRing [4, 5]) 4).2.2.1⟩

/-- C10: on an empty list (self-looped sentinel `d`), `pop_front()` and
`pop_back()` are harmless no-ops: both erase the sentinel position, whose
`unlink` is the idempotent self-loop case, so the heap is unchanged, the
list stays empty and the sentinel stays self-looped. -/
theorem spec_c10 (h : Heap) (d : Nat) (hp : (h d).prev = d) (hn : (h d).next = d) :
    pop_front h d = h ∧ pop_back h d = h ∧
    empty (pop_front h d) d = true ∧ empty (pop_back h d) d = true ∧
    ((pop_front h d) d).prev = d ∧ ((pop_front h d) d).next = d := by
  have h1 : pop_front h d = h := by
    show (erase h (begin h d)).1 = h
    unfold begin erase
    rw [hn]
    exact unlink_unlinked h d hp hn
  have h2 : pop_back h d = h := by
    show (erase h ((h d).prev)).1 = h
    rw [hp]
    exact unlink_unlinked h d hp hn
  refine ⟨h1, h2, ?_, ?_, ?_, ?_⟩
  · rw [h1]
    simp [empty, is_linked, hp]
  · rw [h2]
    simp [empty, is_linked, hp]
  · rw [h1, hp]
  · rw [h1, hn]

theorem spec_c10_witness :
    pop_front (mkRing [8]) 8 = mkRing [8] ∧ pop_back (mkRing [8]) 8 = mkRing [8] ∧
    empty (pop_front (mkRing [8]) 8) 8 = true :=
  ⟨(spec_c10 (mkRing [8]) 8 (by decide) (by decide)).1,
    (spec_c10 (mkRing [8]) 8 (by decide) (by decide)).2.1,
    (spec_c10 (mkRing [8]) 8 (by decide) (by decide)).2.2.1⟩

/-- C8: for a member `v` of the list with sentinel `d` (so `pos ≠ end()`),
`erase` unlinks exactly that member: afterwards `is_linked v = false`, the
remaining sequence is the original minus `v` with order preserved, `size`
drops accordingly, and the returned iterator is the member that followed `v`,
or `end()` when `v` was last. -/
theorem spec_c8 (h : Heap) (d v : Nat) (s₁ s₂ : List Nat) (fuel : Nat)
    (hr : isRing h d (s₁ ++ v :: s₂)) (hf : (s₁ ++ s₂).length < fuel) :
    isRing (erase h v).1 d (s₁ ++ s₂) ∧
    is_linked (erase h v).1 v = false ∧
    (erase h v).2 = s₂.headD d ∧
    (s₂ = [] → (erase h v).2 = endIt h d) ∧
    seqOf (erase h v).1 d fuel = s₁ ++ s₂ ∧
    size (erase h v).1 d fuel = s₁.length + s₂.length := by
  obtain ⟨h1, h2, h3⟩ := ring_erase_mem h d v s₁ s₂ hr
  have h5 : seqOf (erase h v).1 d fuel = s₁ ++ s₂ := seqOf_ring _ d _ fuel h1 hf
  refine ⟨h1, h2, h3, ?_, h5, ?_⟩
  · intro he
    rw [h3, he]
    rfl
  · rw [size, h5, List.length_append]

theorem spec_c8_witness :
    isRing (erase (mkRing [0, 1, 2, 3]) 2).1 0 [1, 3] ∧
    is_linked (erase (mkRing [0, 1, 2, 3]) 2).1 2 = false ∧
    (erase (mkRing [0, 1, 2, 3]) 2).2 = 3 ∧
    seqOf (erase (mkRing [0, 1, 2, 3]) 2).1 0 3 = [1, 3] ∧
    size (erase (mkRing [0, 1, 2, 3]) 2).1 0 3 = 2 := by
  obtain ⟨h1, h2, h3, _, h5, h6⟩ :=
    spec_c8 (mkRing [0, 1, 2, 3]) 0 2 [1] [3] 3 (by decide) (by decide)
  exact ⟨h1, h2, h3, h5, h6⟩

/-- C4 counterexample: clearing the one-member list with sentinel 5 and
member 6 leaves the sole former member with `is_linked() == false` — the
claim that every formerly-held member still reports `is_linked() == true`
immediately after `clear()` is false for singleton lists. -/
theorem spec_c4_counterexample :
    isRing (mkRing [5, 6]) 5 [6] ∧
    empty (clear (mkRing [5, 6]) 5) 5 = true ∧
    is_linked (clear (mkRing [5, 6]) 5) 6 = false :=
  ⟨by decide, by decide, by decide⟩

/-- C4 (amended): `clear()` on a non-empty list unlinks only the sentinel and
makes the list empty (`empty() = true`, `size() = 0`, `begin() = end()`);
the former members remain mutually chained as a sentinel-less ring; every
formerly-held member still reports `is_linked() == true` PROVIDED the list
held at least two members (the sole member of a singleton list becomes
self-looped, i.e. unlinked); and any former member subsequently inserted
into a disjoint list becomes a normal member of it. -/
theorem spec_c4 (h : Heap) (d d2 v : Nat) (s₁ s₂ t : List Nat) (fuel : Nat)
    (hr : isRing h d (s₁ ++ v :: s₂))
    (hr2 : isRing h d2 t)
    (hdisj : List.Disjoint (d :: s₁ ++ v :: s₂) (d2 :: t)) :
    isRingL (clear h d) (s₁ ++ v :: s₂) ∧
    empty (clear h d) d = true ∧
    begin (clear h d) d = endIt (clear h d) d ∧
    seqOf (clear h d) d fuel = [] ∧
    size (clear h d) d fuel = 0 ∧
    (2 ≤ (s₁ ++ v :: s₂).length → ∀ w ∈ s₁ ++ v :: s₂, is_linked (clear h d) w = true) ∧
    isRing ((insert (clear h d) d2 v).1) d2 (t ++ [v]) := by
  obtain ⟨hdet, hemp, hbeg⟩ := ring_clear h d (s₁ ++ v :: s₂) hr
  have hseq : seqOf (clear h d) d fuel = [] := by
    show traverse (clear h d) d fuel (begin (clear h d) d) = []
    rw [hbeg]
    cases fuel with
    | zero => rfl
    | succ f => simp [traverse]
  have hdstframe : isRingL (clear h d) (d2 :: t) := by
    have hdm : d ∈ d :: s₁ ++ v :: s₂ := by simp
    obtain ⟨hdp_mem, _⟩ := ringL_mem_prev2 h (d :: s₁ ++ v :: s₂) d hr hdm
    obtain ⟨hdn_mem, _⟩ := ringL_mem_next2 h (d :: s₁ ++ v :: s₂) d hr hdm
    refine ringL_frame h (clear h d) _ ?_ hr2
    intro y hy
    refine unlink_frame h d y ?_ ?_ ?_
    · intro e; exact hdisj hdm (e ▸ hy)
    · intro e; exact hdisj hdp_mem (e ▸ hy)
    · intro e; exact hdisj hdn_mem (e ▸ hy)
  have hdisj2 : List.Disjoint (s₁ ++ v :: s₂) (d2 :: t) := by
    intro a ha
    exact hdisj (List.mem_cons_of_mem d ha)
  obtain ⟨_, hins, _⟩ := ringL_insert_cross (clear h d) v d2 s₁ s₂ t hdet hdstframe hdisj2
  refine ⟨hdet, hemp, hbeg, hseq, by rw [size, hseq]; rfl, ?_, ?_⟩
  · intro hlen w hw
    exact ringL_islinked (clear h d) _ hdet hlen hw
  · have := ringL_rotate (insert (clear h d) d2 v).1 [v] (d2 :: t) hins
    exact this

/-- C4 witness: a concrete two-member list [1, 2] with sentinel 0 cleared,
and member 1 then inserted at the end of the disjoint list with sentinel 7
holding [8]. -/
theorem spec_c4_witness :
    isRingL (clear (mkRing2 [0, 1, 2] [7, 8]) 0) [1, 2] ∧
    empty (clear (mkRing2 [0, 1, 2] [7, 8]) 0) 0 = true ∧
    seqOf (clear (mkRing2 [0, 1, 2] [7, 8]) 0) 0 5 = [] ∧
    (∀ w ∈ [1, 2], is_linked (clear (mkRing2 [0, 1, 2] [7, 8]) 0) w = true) ∧
    isRing ((insert (clear (mkRing2 [0, 1, 2] [7, 8]) 0) 7 1).1) 7 [8, 1] := by
  obtain ⟨h1, h2, _, h4, _, h6, h7⟩ :=
    spec_c4 (mkRing2 [0, 1, 2] [7, 8]) 0 7 1 [] [2] [8] 5 (by decide) (by decide)
      (by intro a ha hb; simp at ha hb; omega)
  exact ⟨h1, h2, h4, h6 (by decide), h7⟩

/-- C7 counterexample: in the two-node ring {10, 20} — reachable as the
detached ring that `clear()` leaves behind on a two-element list —
copy-assigning node 10 from node 20 changes the source: node 20 was linked
before the assignment and is unlinked afterwards, refuting "leaving the
source unaffected". -/
theorem spec_c7_counterexample :
    is_linked (mkRing [10, 20]) 20 = true ∧
    is_linked (assign_copy (mkRing [10, 20]) 10 20) 20 = false :=
  ⟨by decide, by decide⟩

/-- C7 (amended): copy construction produces a self-looped, unlinked node and
writes nothing else (so the source is untouched); self-copy-assignment is a
no-op that changes nothing; copy assignment with `t ≠ o` unlinks the
destination `t` (removing it from its ring, order of the rest preserved)
and leaves the source `o` unaffected PROVIDED `o` is not one of `t`'s ring
neighbours — a neighbouring source has its pointer toward `t` redirected,
and in a two-node ring it thereby ends up unlinked. -/
theorem spec_c7 (h : Heap) (t o d : Nat) (s₁ s₂ : List Nat) :
    ((ctor_copy h t o) t = ⟨t, t⟩ ∧ is_linked (ctor_copy h t o) t = false ∧
      (∀ y, y ≠ t → (ctor_copy h t o) y = h y)) ∧
    (assign_copy h t t = h) ∧
    (t ≠ o →
      (assign_copy h t o) t = ⟨t, t⟩ ∧ is_linked (assign_copy h t o) t = false ∧
      (o ≠ (h t).prev → o ≠ (h t).next → (assign_copy h t o) o = h o)) ∧
    (t ≠ o → isRing h d (s₁ ++ t :: s₂) → isRing (assign_copy h t o) d (s₁ ++ s₂)) := by
  have hac : ∀ (hto : t ≠ o), assign_copy h t o = unlink h t := by
    intro hto
    simp [assign_copy, hto]
  refine ⟨⟨ctor_default_at h t, ?_, fun y hy => ctor_default_ne h t y hy⟩, ?_, ?_, ?_⟩
  · rw [is_linked_false_iff]
    show ((ctor_default h t) t).prev = t
    rw [ctor_default_at]
  · simp [assign_copy]
  · intro hto
    rw [hac hto]
    refine ⟨unlink_at h t, is_linked_unlink h t, ?_⟩
    intro h1 h2
    exact unlink_frame h t o (fun e => hto e.symm) h1 h2
  · intro hto hr
    rw [hac hto]
    exact ringL_unlink h t (d :: s₁) s₂ hr

theorem spec_c7_witness :
    (ctor_copy (mkRing [0, 1, 2]) 9 1) 9 = ⟨9, 9⟩ ∧
    (∀ y, y ≠ 9 → (ctor_copy (mkRing [0, 1, 2]) 9 1) y = mkRing [0, 1, 2] y) ∧
    assign_copy (mkRing [0, 1, 2]) 1 1 = mkRing [0, 1, 2] ∧
    is_linked (assign_copy (mkRing [0, 1, 2]) 1 9) 1 = false ∧
    (assign_copy (mkRing [0, 1, 2]) 1 9) 9 = mkRing [0, 1, 2] 9 ∧
    isRing (assign_copy (mkRing [0, 1, 2]) 1 9) 0 [2] := by
  have happ := spec_c7 (mkRing [0, 1, 2]) 9 1 0 [] []
  have happ2 := spec_c7 (mkRing [0, 1, 2]) 1 9 0 [] [2]
  refine ⟨happ.1.1, happ.1.2.2, happ.2.1, ?_, ?_, ?_⟩
  · exact (happ2.2.2.1 (by decide)).2.1
  · exact (happ2.2.2.1 (by decide)).2.2 (by decide) (by decide)
  · exact happ2.2.2.2 (by decide) (by decide)

/-- C1 counterexample: destroying node 2, a member of the list ring
0 → 1 → 2 → 3 (sentinel 0), does NOT splice it out: `~list_element_base()`
is `= default` and writes no pointers.  Node 1 (its back neighbour) still
points forward to 2 rather than to 3, and iterating the list afterwards
still visits the destroyed node 2. -/
theorem spec_c1_counterexample :
    isRing (mkRing [0, 1, 2, 3]) 0 [1, 2, 3] ∧
    ((dtor (mkRing [0, 1, 2, 3]) 2) 1).next = 2 ∧
    ¬ ((dtor (mkRing [0, 1, 2, 3]) 2) 1).next = 3 ∧
    seqOf (dtor (mkRing [0, 1, 2, 3]) 2) 0 9 = [1, 2, 3] :=
  ⟨by decide, by decide, by decide, by decide⟩

/-- C1 (amended): node destruction performs NO unlinking — the destructor of
`list_element_base` is `= default` and writes no pointers (and `~list()`
destroys its sentinel through that same defaulted destructor), so the heap
is unchanged: a destroyed node's former neighbours keep referencing it and
iteration of its list still visits its address.  A linked node must be
unlinked explicitly before destruction to keep its ring consistent. -/
theorem spec_c1 (h : Heap) (x d : Nat) (s₁ s₂ : List Nat) (fuel : Nat) :
    dtor h x = h ∧
    (isRing h d (s₁ ++ x :: s₂) → (s₁ ++ x :: s₂).length < fuel →
      ((dtor h x) (lastD d s₁)).next = x ∧
      ((dtor h x) ((h x).next)).prev = x ∧
      x ∈ seqOf (dtor h x) d fuel ∧
      seqOf (dtor h x) d fuel = s₁ ++ x :: s₂) := by
  refine ⟨rfl, ?_⟩
  intro hr hf
  have hch : chainFrom h d (s₁ ++ x :: s₂) d := hr.2
  obtain ⟨c1, c2⟩ := (chainFrom_append h d x d s₁ s₂).mp hch
  have hlast := (chainFrom_last h d x s₁ c1).1
  have hxm : x ∈ d :: (s₁ ++ x :: s₂) := by simp
  obtain ⟨_, hni⟩ := ringL_mem_next2 h (d :: (s₁ ++ x :: s₂)) x hr hxm
  have hseq : seqOf h d fuel = s₁ ++ x :: s₂ := seqOf_ring h d _ fuel hr hf
  exact ⟨hlast, hni, by rw [show dtor h x = h from rfl, hseq]; simp, by rw [show dtor h x = h from rfl, hseq]⟩

theorem spec_c1_witness :
    dtor (mkRing [0, 1, 2, 3]) 2 = mkRing [0, 1, 2, 3] ∧
    ((dtor (mkRing [0, 1, 2, 3]) 2) 1).next = 2 ∧
    2 ∈ seqOf (dtor (mkRing [0, 1, 2, 3]) 2) 0 9 := by
  have happ := spec_c1 (mkRing [0, 1, 2, 3]) 2 0 [1] [3] 9
  have hcons := happ.2 (by decide) (by decide)
  exact ⟨happ.1, hcons.1, hcons.2.2.1⟩

/-- C6: move semantics of `list_element_base`.  Self-move-assignment is a
no-op.  For distinct nodes the destination is unlinked first; then — testing
the source after that unlink, exactly as both the code and the spec order
the steps — if the source is still linked, the destination takes over the
source's exact ring position (the source's former neighbours now point at
the destination) and the source is left self-looped (unlinked); if the
source is unlinked at that point, the destination ends unlinked too.  Move
construction at a fresh address `tf` behaves identically with the source's
link state read in the original heap, and touches no other node when the
source is unlinked. -/
theorem spec_c6 (h : Heap) (D : Finset Nat) (t o tf : Nat)
    (hw : WF h D) (ht : t ∈ D) (ho : o ∈ D) (hto : t ≠ o) (htf : tf ∉ D) :
    (assign_move h o o = h) ∧
    (is_linked (unlink h t) o = true →
      (assign_move h t o) t = ⟨((unlink h t) o).prev, ((unlink h t) o).next⟩ ∧
      ((assign_move h t o) (((unlink h t) o).prev)).next = t ∧
      ((assign_move h t o) (((unlink h t) o).next)).prev = t ∧
      (assign_move h t o) o = ⟨o, o⟩ ∧
      is_linked (assign_move h t o) o = false) ∧
    (is_linked (unlink h t) o = false →
      assign_move h t o = unlink h t ∧
      is_linked (assign_move h t o) t = false ∧
      is_linked (assign_move h t o) o = false) ∧
    (is_linked h o = true →
      (ctor_move h tf o) tf = ⟨(h o).prev, (h o).next⟩ ∧
      ((ctor_move h tf o) ((h o).prev)).next = tf ∧
      ((ctor_move h tf o) ((h o).next)).prev = tf ∧
      (ctor_move h tf o) o = ⟨o, o⟩) ∧
    (is_linked h o = false →
      (ctor_move h tf o) tf = ⟨tf, tf⟩ ∧ (∀ y, y ≠ tf → (ctor_move h tf o) y = h y)) := by
  have hotf : o ≠ tf := fun e => htf (e ▸ ho)
  have htfo : tf ≠ o := fun e => hotf e.symm
  -- the fresh-construction heap
  have hw1 : WF (ctor_default h tf) (D ∪ {tf}) := WF_ctor_default h D tf hw htf
  have hcu : unlink (ctor_default h tf) tf = ctor_default h tf :=
    unlink_unlinked _ tf (by rw [ctor_default_at]) (by rw [ctor_default_at])
  have hco : (ctor_default h tf) o = h o := ctor_default_ne h tf o hotf
  have hcp : (h o).prev ≠ tf := fun e => htf (e ▸ hw.prev_mem ho)
  have hcn : (h o).next ≠ tf := fun e => htf (e ▸ hw.next_mem ho)
  refine ⟨assign_move_self h o, ?_, ?_, ?_, ?_⟩
  · intro hlink
    rw [is_linked_iff] at hlink
    obtain ⟨g1, g2, g3, g4⟩ := assign_move_spec h D t o hw ht ho hto hlink
    refine ⟨g1, g2, g3, g4, ?_⟩
    rw [is_linked_false_iff, g4]
  · intro hlink
    rw [is_linked_false_iff] at hlink
    have heq : assign_move h t o = unlink h t :=
      assign_move_of_unlinked h t o hto (by rw [hlink]; simp)
    refine ⟨heq, ?_, ?_⟩
    · rw [heq, is_linked_false_iff, unlink_at]
    · rw [heq, is_linked_false_iff, hlink]
  · intro hlink
    rw [is_linked_iff] at hlink
    have hlink2 : ((unlink (ctor_default h tf) tf) o).prev ≠ o := by
      rw [hcu, hco]
      exact hlink
    obtain ⟨g1, g2, g3, g4⟩ := assign_move_spec (ctor_default h tf) (D ∪ {tf}) tf o hw1
      (Finset.mem_union_right _ (by simp)) (Finset.mem_union_left _ ho) htfo hlink2
    have hfold : ∀ z : Nat, (assign_move (ctor_default h tf) tf o) z = (ctor_move h tf o) z :=
      fun z => rfl
    rw [hcu, hco] at g1 g2 g3
    exact ⟨g1, g2, g3, g4⟩
  · intro hlink
    rw [is_linked_false_iff] at hlink
    have heq : ctor_move h tf o = ctor_default h tf := by
      show assign_move (ctor_default h tf) tf o = ctor_default h tf
      rw [assign_move_of_unlinked (ctor_default h tf) tf o htfo
        (by rw [hcu, hco, hlink]; simp), hcu]
    refine ⟨?_, ?_⟩
    · rw [heq, ctor_default_at]
    · intro y hy
      rw [heq, ctor_default_ne h tf y hy]

theorem spec_c6_witness :
    assign_move (mkRing [0, 1, 2]) 2 2 = mkRing [0, 1, 2] ∧
    (assign_move (mkRing [0, 1, 2]) 1 2) 1 = ⟨0, 0⟩ ∧
    (assign_move (mkRing [0, 1, 2]) 1 2) 2 = ⟨2, 2⟩ ∧
    (ctor_move (mkRing [0, 1, 2]) 9 2) 9 = ⟨1, 0⟩ ∧
    ((ctor_move (mkRing [0, 1, 2]) 9 2) 1).next = 9 ∧
    ((ctor_move (mkRing [0, 1, 2]) 9 2) 0).prev = 9 ∧
    (ctor_move (mkRing [0, 1, 2]) 9 2) 2 = ⟨2, 2⟩ := by
  have happ := spec_c6 (mkRing [0, 1, 2]) {0, 1, 2} 1 2 9 (by decide) (by decide)
    (by decide) (by decide) (by decide)
  have h2 := happ.2.1 (by decide)
  have h4 := happ.2.2.2.1 (by decide)
  exact ⟨happ.1, h2.1, h2.2.2.2.1, h4.1, h4.2.1, h4.2.2.1, h4.2.2.2⟩

/-- C5: `insert(pos, v)` is a no-op returning an iterator equal to `pos` when
`v` is the element at `pos` (address identity, as the code tests); otherwise
it first unlinks `v` from whatever ring it is in — a no-op when `v` is
already unlinked — and splices `v` immediately before `pos`, returning an
iterator to `v`.  Consequently an element belongs to at most one list per
tag: inserting a member of a list L1 into a disjoint list L2 removes it from
L1, decreasing L1's size by one and preserving the order of L1's remaining
members. -/
theorem spec_c5 (h : Heap) (pos v d1 : Nat) (δ δ₁ δ₂ s₁ s₂ : List Nat) (fuel : Nat) :
    (insert h pos pos = (h, pos)) ∧
    (isRingL h (pos :: δ) → (h v).prev = v → (h v).next = v → v ∉ pos :: δ →
      isRingL (insert h pos v).1 (v :: pos :: δ) ∧ (insert h pos v).2 = v) ∧
    (isRingL h (pos :: δ₁ ++ v :: δ₂) →
      isRingL (insert h pos v).1 (v :: pos :: δ₁ ++ δ₂) ∧ (insert h pos v).2 = v) ∧
    (isRing h d1 (s₁ ++ v :: s₂) → isRingL h (pos :: δ) →
      List.Disjoint (d1 :: s₁ ++ v :: s₂) (pos :: δ) → (s₁ ++ s₂).length < fuel →
      isRing (insert h pos v).1 d1 (s₁ ++ s₂) ∧
      isRingL (insert h pos v).1 (v :: pos :: δ) ∧
      (insert h pos v).2 = v ∧
      seqOf (insert h pos v).1 d1 fuel = s₁ ++ s₂ ∧
      size (insert h pos v).1 d1 fuel = s₁.length + s₂.length ∧
      (∀ fuel2, (s₁ ++ v :: s₂).length < fuel2 →
        size h d1 fuel2 = s₁.length + s₂.length + 1)) := by
  refine ⟨by simp [insert], ?_, ?_, ?_⟩
  · intro hr hv1 hv2 hvm
    exact ringL_insert_fresh h pos v δ hr hv1 hv2 hvm
  · intro hr
    exact ringL_insert_member h pos v δ₁ δ₂ hr
  · intro hr1 hr2 hdisj hf
    obtain ⟨hsrc, hdst, hret⟩ := ringL_insert_cross h v pos (d1 :: s₁) s₂ δ hr1 hr2 hdisj
    have hseq : seqOf (insert h pos v).1 d1 fuel = s₁ ++ s₂ :=
      seqOf_ring _ d1 _ fuel hsrc hf
    refine ⟨hsrc, hdst, hret, hseq, by rw [size, hseq, List.length_append], ?_⟩
    intro fuel2 hf2
    have hseq2 : seqOf h d1 fuel2 = s₁ ++ v :: s₂ := seqOf_ring h d1 _ fuel2 hr1 hf2
    rw [size, hseq2, List.length_append, List.length_cons]
    omega

theorem spec_c5_witness :
    insert (mkRing2 [0, 1, 2, 3] [20, 21]) 20 20 = (mkRing2 [0, 1, 2, 3] [20, 21], 20) ∧
    isRingL (insert (mkRing2 [0, 1, 2, 3] [20, 21]) 20 9).1 [9, 20, 21] ∧
    isRingL (insert (mkRing2 [0, 1, 2, 3] [20, 21]) 0 2).1 [2, 0, 1, 3] ∧
    isRing (insert (mkRing2 [0, 1, 2, 3] [20, 21]) 20 2).1 0 [1, 3] ∧
    isRingL (insert (mkRing2 [0, 1, 2, 3] [20, 21]) 20 2).1 [2, 20, 21] ∧
    seqOf (insert (mkRing2 [0, 1, 2, 3] [20, 21]) 20 2).1 0 3 = [1, 3] ∧
    size (insert (mkRing2 [0, 1, 2, 3] [20, 21]) 20 2).1 0 3 = 2 ∧
    size (mkRing2 [0, 1, 2, 3] [20, 21]) 0 4 = 3 := by
  have h1 := spec_c5 (mkRing2 [0, 1, 2, 3] [20, 21]) 20 9 0 [21] [] [] [] [] 3
  have h2 := spec_c5 (mkRing2 [0, 1, 2, 3] [20, 21]) 0 2 0 [] [1] [3] [] [] 3
  have h3 := spec_c5 (mkRing2 [0, 1, 2, 3] [20, 21]) 20 2 0 [21] [] [] [1] [3] 3
  have hfresh := h1.2.1 (by decide) (by decide) (by decide) (by decide)
  have hsame := h2.2.2.1 (by decide)
  have hcross := h3.2.2.2 (by decide) (by decide)
    (by intro a ha hb; simp at ha hb; omega) (by decide)
  exact ⟨h1.1, hfresh.1, hsame.1, hcross.1, hcross.2.1, hcross.2.2.2.1,
    hcross.2.2.2.2.1, hcross.2.2.2.2.2 4 (by decide)⟩

/-- C3 counterexample: with the list `[1, 2, 3]` (sentinel 0), the call
`splice(pos = 3, first = 1, lastExclusive = 3)` asks to move the range
`[1, 2]` to immediately before node 3 — where it already sits, so by the
claim the list should stay `[1, 2, 3]`.  Instead the code excises the range
(iteration now yields `[3]`) and corrupts the excised nodes' links
(`2->next == 3` while `3->prev == 0`). -/
theorem spec_c3_counterexample :
    isRing (mkRing [0, 1, 2, 3]) 0 [1, 2, 3] ∧
    seqOf (splice (mkRing [0, 1, 2, 3]) 3 1 3) 0 9 = [3] ∧
    ¬ seqOf (splice (mkRing [0, 1, 2, 3]) 3 1 3) 0 9 = [1, 2, 3] ∧
    ((splice (mkRing [0, 1, 2, 3]) 3 1 3) 2).next = 3 ∧
    ((splice (mkRing [0, 1, 2, 3]) 3 1 3) 3).prev = 0 :=
  ⟨by decide, by decide, by decide, by decide, by decide⟩

/-- C3 (amended): `splice(pos, other, first, lastEx)` is a no-op when
`first = lastEx`; otherwise, PROVIDED `pos` does not lie in the closed range
`[first, last]` — in particular `pos ≠ lastEx`, since `pos = lastEx`, though
a no-op in intent, instead excises the range and corrupts its back links —
it moves exactly the members of `[first, lastEx)`, in their original
relative order, to sit immediately before `pos`, joining the range's former
bracketing neighbours to each other.  This holds both across two disjoint
rings and within a single ring, and in particular splicing all of L1 onto
the end of an empty L2 leaves L1 empty and L2 holding L1's former sequence
(all spliced members remaining linked members of the destination ring, so
iterators to them stay valid). -/
theorem spec_c3 (h : Heap) (pos first lastEx d1 d2 : Nat)
    (M γ δ γ₁ γ₂ s : List Nat) (fuel : Nat) :
    (splice h pos first first = h) ∧
    (isRingL h (first :: M ++ lastEx :: γ) → isRingL h (pos :: δ) →
      List.Disjoint (first :: M ++ lastEx :: γ) (pos :: δ) →
      isRingL (splice h pos first lastEx) (lastEx :: γ) ∧
      isRingL (splice h pos first lastEx) (first :: M ++ pos :: δ)) ∧
    (isRingL h (first :: M ++ lastEx :: γ₁ ++ pos :: γ₂) →
      isRingL (splice h pos first lastEx) (first :: M ++ pos :: γ₂ ++ lastEx :: γ₁)) ∧
    (isRing h d1 s → isRing h d2 [] → s ≠ [] → d2 ∉ d1 :: s → s.length < fuel →
      empty (splice h d2 (begin h d1) d1) d1 = true ∧
      seqOf (splice h d2 (begin h d1) d1) d1 fuel = [] ∧
      isRing (splice h d2 (begin h d1) d1) d2 s ∧
      seqOf (splice h d2 (begin h d1) d1) d2 fuel = s) := by
  refine ⟨by simp [splice], ?_, ?_, ?_⟩
  · intro hs hd hdisj
    exact ring_splice_cross h first lastEx pos M γ δ hs hd hdisj
  · intro hs
    exact ring_splice_same h first lastEx pos M γ₁ γ₂ hs
  · intro hr1 hr2 hne hd2 hf
    cases s with
    | nil => exact absurd rfl hne
    | cons a s2 =>
      have hbegin : begin h d1 = a := by
        show (h d1).next = a
        exact chainFrom_head h d1 d1 (a :: s2) hr1.2
      rw [hbegin]
      have hsrc : isRingL h ((a :: s2) ++ [d1]) := ringL_rotate h [d1] (a :: s2) hr1
      have hdisj : List.Disjoint ((a :: s2) ++ [d1]) [d2] := by
        intro x hx hmem
        have hxd2 : x = d2 := by simpa using hmem
        subst hxd2
        rcases List.mem_append.mp hx with h1 | h1
        · exact hd2 (List.mem_cons_of_mem d1 h1)
        · have : x = d1 := by simpa using h1
          exact hd2 (by rw [this]; simp)
      obtain ⟨hring1, hring2⟩ :=
        ring_splice_cross h a d1 d2 s2 [] [] hsrc hr2 hdisj
      set g := splice h d2 a d1 with hgdef
      have hd1ring : isRing g d1 [] := hring1
      have hd2ring : isRing g d2 (a :: s2) := by
        have := ringL_rotate g (a :: s2) (d2 :: []) hring2
        exact this
      refine ⟨?_, ?_, hd2ring, seqOf_ring g d2 _ fuel hd2ring hf⟩
      · have hprev : (g d1).prev = d1 := by
          have hch : chainFrom g d1 [] d1 := hd1ring.2
          exact hch.2
        simp [empty, is_linked, hprev]
      · exact seqOf_ring g d1 [] fuel hd1ring (Nat.lt_of_le_of_lt (Nat.zero_le _) hf)

theorem spec_c3_witness :
    splice (mkRing2 [0, 1, 2, 3] [10, 11]) 10 1 1 = mkRing2 [0, 1, 2, 3] [10, 11] ∧
    isRingL (splice (mkRing2 [0, 1, 2, 3] [10, 11]) 10 1 3) [3, 0] ∧
    isRingL (splice (mkRing2 [0, 1, 2, 3] [10, 11]) 10 1 3) [1, 2, 10, 11] ∧
    isRingL (splice (mkRing [0, 1, 2, 3]) 3 1 2) [1, 3, 0, 2] ∧
    empty (splice (mkRing2 [0, 1, 2, 3] [10]) 10 (begin (mkRing2 [0, 1, 2, 3] [10]) 0) 0) 0 = true ∧
    seqOf (splice (mkRing2 [0, 1, 2, 3] [10]) 10 (begin (mkRing2 [0, 1, 2, 3] [10]) 0) 0) 10 4 = [1, 2, 3] := by
  have h1 := spec_c3 (mkRing2 [0, 1, 2, 3] [10, 11]) 10 1 3 0 0 [2] [0] [11] [] [] [] 4
  have h2 := spec_c3 (mkRing [0, 1, 2, 3]) 3 1 2 0 0 [] [] [] [] [0] [] 4
  have h3 := spec_c3 (mkRing2 [0, 1, 2, 3] [10]) 10 1 3 0 10 [] [] [] [] [] [1, 2, 3] 4
  have hcross := h1.2.1 (by decide) (by decide) (by intro a ha hb; simp at ha hb; omega)
  have hsame := h2.2.2.1 (by decide)
  have hflag := h3.2.2.2 (by decide) (by decide) (by decide) (by decide) (by decide)
  exact ⟨h1.1, hcross.1, hcross.2, hsame, hflag.1, hflag.2.2.2⟩

/-- C2 counterexample: the heap of the single well-formed list `[1, 2, 3]`
(sentinel 0) satisfies the structural invariant, and
`splice(pos = 3, other, first = 1, lastExclusive = 3)` is a call whose
arguments meet every precondition the spec states for `splice` (a valid
position and a valid half-open range of linked members of one list) — yet
the invariant is destroyed. -/
theorem spec_c2_counterexample :
    WF (mkRing [0, 1, 2, 3]) ({0, 1, 2, 3} : Finset Nat) ∧
    isRing (mkRing [0, 1, 2, 3]) 0 [1, 2, 3] ∧
    ¬ WF (splice (mkRing [0, 1, 2, 3]) 3 1 3) ({0, 1, 2, 3} : Finset Nat) :=
  ⟨by decide, by decide, by decide⟩

/-- C2 (amended): every public operation — node default/copy/move
construction and assignment, `unlink`, and list `insert`, `erase`,
`push_front`/`push_back`, `pop_front`/`pop_back`, `clear`, and `splice` WITH
THE ADDITIONAL PRECONDITION that `pos` lies outside the closed range
`[first, last]` (formalised below by the ring decompositions; without it
`splice` breaks the invariant) — preserves the structural invariant `WF`:
`back`/`forward` stay within the live set and are mutual inverses at every
node.  Moreover under `WF` an unlinked node is exactly a self-loop
(`back = self ↔ forward = self`), and following `forward` from any live node
returns to it after at most `|D|` steps, visiting pairwise-distinct nodes on
the way. -/
theorem spec_c2 (h : Heap) (D : Finset Nat) (x t o tf pos v d first lastEx : Nat)
    (M γ δ γ₁ γ₂ : List Nat) :
    (WF h D → x ∈ D → WF (unlink h x) D) ∧
    (WF h D → tf ∉ D → WF (ctor_default h tf) (D ∪ {tf})) ∧
    (WF h D → tf ∉ D → WF (ctor_copy h tf o) (D ∪ {tf})) ∧
    (WF h D → t ∈ D → WF (assign_copy h t o) D) ∧
    (WF h D → t ∈ D → o ∈ D → WF (assign_move h t o) D) ∧
    (WF h D → tf ∉ D → o ∈ D → WF (ctor_move h tf o) (D ∪ {tf})) ∧
    (WF h D → pos ∈ D → v ∈ D → WF (insert h pos v).1 D) ∧
    (WF h D → pos ∈ D → WF (erase h pos).1 D) ∧
    (WF h D → d ∈ D → v ∈ D → WF (push_front h d v) D ∧ WF (push_back h d v) D) ∧
    (WF h D → d ∈ D → WF (pop_front h d) D ∧ WF (pop_back h d) D ∧ WF (clear h d) D) ∧
    (isRingL h (first :: M ++ lastEx :: γ) → isRingL h (pos :: δ) →
      List.Disjoint (first :: M ++ lastEx :: γ) (pos :: δ) →
      WF h ((first :: M ++ lastEx :: γ) ++ pos :: δ).toFinset ∧
      WF (splice h pos first lastEx) ((first :: M ++ lastEx :: γ) ++ pos :: δ).toFinset) ∧
    (isRingL h (first :: M ++ lastEx :: γ₁ ++ pos :: γ₂) →
      WF h (first :: M ++ lastEx :: γ₁ ++ pos :: γ₂).toFinset ∧
      WF (splice h pos first lastEx) (first :: M ++ lastEx :: γ₁ ++ pos :: γ₂).toFinset) ∧
    (WF h D → x ∈ D → ((h x).prev = x ↔ (h x).next = x)) ∧
    (WF h D → x ∈ D → ∃ k, 0 < k ∧ k ≤ D.card ∧ (nextF h)^[k] x = x ∧
      ∀ i j, i < j → j < k → (nextF h)^[i] x ≠ (nextF h)^[j] x) := by
  refine ⟨?_, ?_, ?_, ?_, ?_, ?_, ?_, ?_, ?_, ?_, ?_, ?_, ?_, ?_⟩
  · intro hw hx
    exact WF_unlink h D x hw hx
  · intro hw htf
    exact WF_ctor_default h D tf hw htf
  · intro hw htf
    exact WF_ctor_default h D tf hw htf
  · intro hw ht
    by_cases hto : t = o
    · simp only [assign_copy, if_pos hto]
      exact hw
    · simp only [assign_copy, if_neg hto]
      exact WF_unlink h D t hw ht
  · intro hw ht ho
    exact WF_assign_move h D t o hw ht ho
  · intro hw htf ho
    exact WF_assign_move (ctor_default h tf) (D ∪ {tf}) tf o
      (WF_ctor_default h D tf hw htf)
      (Finset.mem_union_right _ (by simp)) (Finset.mem_union_left _ ho)
  · intro hw hpos hv
    exact WF_insert h D pos v hw hpos hv
  · intro hw hpos
    exact WF_unlink h D pos hw hpos
  · intro hw hd hv
    exact ⟨WF_insert h D ((h d).next) v hw (hw.next_mem hd) hv,
      WF_insert h D d v hw hd hv⟩
  · intro hw hd
    exact ⟨WF_unlink h D ((h d).next) hw (hw.next_mem hd),
      WF_unlink h D ((h d).prev) hw (hw.prev_mem hd),
      WF_unlink h D d hw hd⟩
  · intro hs hd hdisj
    obtain ⟨hr1, hr2⟩ := ring_splice_cross h first lastEx pos M γ δ hs hd hdisj
    have hndS := hs.1
    have hU : ((first :: M ++ lastEx :: γ) ++ pos :: δ).toFinset =
        (lastEx :: γ).toFinset ∪ (first :: M ++ pos :: δ).toFinset := by
      ext a
      simp only [List.mem_toFinset, List.mem_append, List.mem_cons, Finset.mem_union]
      tauto
    constructor
    · rw [List.toFinset_append]
      exact WF_of_two_rings h _ _ hs hd hdisj
    · rw [hU]
      refine WF_of_two_rings _ _ _ hr1 hr2 ?_
      intro a ha hb
      rcases List.mem_append.mp hb with h1 | h1
      · exact (List.disjoint_of_nodup_append hndS) h1 ha
      · exact hdisj (List.mem_append.mpr (Or.inr ha)) h1
  · intro hs
    have hg := ring_splice_same h first lastEx pos M γ₁ γ₂ hs
    have hperm : (first :: M ++ lastEx :: γ₁ ++ pos :: γ₂).Perm
        (first :: M ++ pos :: γ₂ ++ lastEx :: γ₁) := by
      rw [List.append_assoc, List.append_assoc]
      exact List.Perm.append_left _ List.perm_append_comm
    have hfs : (first :: M ++ pos :: γ₂ ++ lastEx :: γ₁).toFinset =
        (first :: M ++ lastEx :: γ₁ ++ pos :: γ₂).toFinset := by
      ext a
      simp only [List.mem_toFinset]
      exact hperm.mem_iff.symm
    refine ⟨WF_of_ring h _ hs, ?_⟩
    rw [← hfs]
    exact WF_of_ring _ _ hg
  · intro hw hx
    exact WF.self_iff hw hx
  · intro hw hx
    exact WF_cycle hw hx

theorem spec_c2_witness :
    WF (unlink (mkRing2 [0, 1, 2, 3] [7, 8]) 1) {0, 1, 2, 3, 7, 8} ∧
    WF (ctor_default (mkRing2 [0, 1, 2, 3] [7, 8]) 15) ({0, 1, 2, 3, 7, 8} ∪ {15}) ∧
    WF (ctor_copy (mkRing2 [0, 1, 2, 3] [7, 8]) 15 2) ({0, 1, 2, 3, 7, 8} ∪ {15}) ∧
    WF (assign_copy (mkRing2 [0, 1, 2, 3] [7, 8]) 1 2) {0, 1, 2, 3, 7, 8} ∧
    WF (assign_move (mkRing2 [0, 1, 2, 3] [7, 8]) 1 2) {0, 1, 2, 3, 7, 8} ∧
    WF (ctor_move (mkRing2 [0, 1, 2, 3] [7, 8]) 15 2) ({0, 1, 2, 3, 7, 8} ∪ {15}) ∧
    WF (insert (mkRing2 [0, 1, 2, 3] [7, 8]) 7 2).1 {0, 1, 2, 3, 7, 8} ∧
    WF (erase (mkRing2 [0, 1, 2, 3] [7, 8]) 7).1 {0, 1, 2, 3, 7, 8} ∧
    WF (push_front (mkRing2 [0, 1, 2, 3] [7, 8]) 0 2) {0, 1, 2, 3, 7, 8} ∧
    WF (push_back (mkRing2 [0, 1, 2, 3] [7, 8]) 0 2) {0, 1, 2, 3, 7, 8} ∧
    WF (pop_front (mkRing2 [0, 1, 2, 3] [7, 8]) 0) {0, 1, 2, 3, 7, 8} ∧
    WF (pop_back (mkRing2 [0, 1, 2, 3] [7, 8]) 0) {0, 1, 2, 3, 7, 8} ∧
    WF (clear (mkRing2 [0, 1, 2, 3] [7, 8]) 0) {0, 1, 2, 3, 7, 8} ∧
    WF (splice (mkRing2 [0, 1, 2, 3] [7, 8]) 7 1 3) ([1, 2, 3, 0] ++ [7, 8]).toFinset ∧
    WF (splice (mkRing [0, 1, 2, 3]) 3 1 2) ([1, 2, 3, 0] : List Nat).toFinset ∧
    ((mkRing2 [0, 1, 2, 3] [7, 8] 1).prev = 1 ↔ (mkRing2 [0, 1, 2, 3] [7, 8] 1).next = 1) ∧
    (∃ k, 0 < k ∧ k ≤ ({0, 1, 2, 3, 7, 8} : Finset Nat).card ∧
      (nextF (mkRing2 [0, 1, 2, 3] [7, 8]))^[k] 1 = 1 ∧
      ∀ i j, i < j → j < k →
        (nextF (mkRing2 [0, 1, 2, 3] [7, 8]))^[i] 1 ≠ (nextF (mkRing2 [0, 1, 2, 3] [7, 8]))^[j] 1) := by
  have happ := spec_c2 (mkRing2 [0, 1, 2, 3] [7, 8]) {0, 1, 2, 3, 7, 8} 1 1 2 15 7 2 0 1 3
    [2] [0] [8] [] []
  have happ2 := spec_c2 (mkRing [0, 1, 2, 3]) {0, 1, 2, 3} 1 1 2 15 3 2 0 1 2
    [] [] [] [] [0]
  have hwf : WF (mkRing2 [0, 1, 2, 3] [7, 8]) {0, 1, 2, 3, 7, 8} := by decide
  have hcross := happ.2.2.2.2.2.2.2.2.2.2.1 (by decide) (by decide)
    (by intro a ha hb; simp at ha hb; omega)
  have hsame := happ2.2.2.2.2.2.2.2.2.2.2.2.1 (by decide)
  refine ⟨happ.1 hwf (by decide), happ.2.1 hwf (by decide), happ.2.2.1 hwf (by decide),
    happ.2.2.2.1 hwf (by decide), happ.2.2.2.2.1 hwf (by decide) (by decide),
    happ.2.2.2.2.2.1 hwf (by decide) (by decide),
    happ.2.2.2.2.2.2.1 hwf (by decide) (by decide),
    happ.2.2.2.2.2.2.2.1 hwf (by decide),
    (happ.2.2.2.2.2.2.2.2.1 hwf (by decide) (by decide)).1,
    (happ.2.2.2.2.2.2.2.2.1 hwf (by decide) (by decide)).2,
    (happ.2.2.2.2.2.2.2.2.2.1 hwf (by decide)).1,
    (happ.2.2.2.2.2.2.2.2.2.1 hwf (by decide)).2.1,
    (happ.2.2.2.2.2.2.2.2.2.1 hwf (by decide)).2.2,
    hcross.2, hsame.2,
    happ.2.2.2.2.2.2.2.2.2.2.2.2.1 hwf (by decide),
    happ.2.2.2.2.2.2.2.2.2.2.2.2.2 hwf (by decide)⟩

end intrusive
